import Mathlib

/-!
Verification of the password generation/analysis core of the AIS repository.

The development shallowly embeds the TypeScript sources
`src/generators/markovGenerator.ts`, `src/generators/randomGenerator.ts` and
`src/analysis/passwordComparison.ts`:

* strings become `List Char`;
* JavaScript numbers become `ℚ` (for the pseudo-random draws and the Markov
  probabilities, which the code only ever builds by exact divisions of counts)
  or `ℝ` (for the entropy / time-to-crack estimators, which use `Math.log2`
  and `Math.pow`); a float expression that JavaScript evaluates to a
  non-finite value (NaN / Infinity) is modelled as `none : Option ℝ`;
* `Math.random()` becomes an explicit infinite stream of rationals in
  `[0, 1)` consumed left to right;
* a `throw` becomes `none`, and the one genuinely unbounded loop of the code
  (the minimum-count replacement loop in `ensureRequiredCharacters`) is given
  explicit fuel, `none` meaning that the loop has not finished within the
  given number of iterations.
-/

namespace AIS

/-! ## Character policy (fields of both generator classes) -/

/-- `private readonly lowercase = "abcdefghijklmnopqrstuvwxyz"`. -/
def lowercaseChars : List Char := "abcdefghijklmnopqrstuvwxyz".toList

/-- `private readonly uppercase = "ABCDEFGHIJKLMNOPQRSTUVWXYZ"`. -/
def uppercaseChars : List Char := "ABCDEFGHIJKLMNOPQRSTUVWXYZ".toList

/-- `private readonly numbers = "0123456789"`. -/
def numberChars : List Char := "0123456789".toList

/-- `private readonly symbols = "!@#$%^&*()_+-=[]{}|;:,.<>?"` (braces written
with hex escapes). -/
def symbolChars : List Char := "!@#$%^&*()_+-=[]\x7b\x7d|;:,.<>?".toList

/-- `private readonly similarChars = "0O1lI"`. -/
def similarChars : List Char := "0O1lI".toList

/-- `private readonly ambiguousChars = "{}[]()/\\'\"`~,;.<>"` (braces written
with hex escapes). -/
def ambiguousChars : List Char := "\x7b\x7d[]()/\\'\"`~,;.<>".toList

/-- `PasswordGeneratorConfig` from `src/types/index.ts`; `length` is a
natural number (the spec requires it positive). -/
structure PasswordGeneratorConfig where
  length : Nat
  includeUppercase : Bool
  includeLowercase : Bool
  includeNumbers : Bool
  includeSymbols : Bool
  avoidSimilar : Bool
  avoidAmbiguous : Bool
deriving DecidableEq, Repr

/-- `isUppercase` : `char >= "A" && char <= "Z"`. -/
def isUppercaseChar (c : Char) : Bool := 'A' ≤ c && c ≤ 'Z'

/-- `isLowercase` : `char >= "a" && char <= "z"`. -/
def isLowercaseChar (c : Char) : Bool := 'a' ≤ c && c ≤ 'z'

/-- `isNumber` : `char >= "0" && char <= "9"`. -/
def isNumberChar (c : Char) : Bool := '0' ≤ c && c ≤ '9'

/-- `isSymbol` : everything that is not a letter or digit. -/
def isSymbolChar (c : Char) : Bool :=
  !isUppercaseChar c && !isLowercaseChar c && !isNumberChar c

/-- The four character categories distinguished by `getCharacterType`. -/
inductive CharCategory where
  | uppercase
  | lowercase
  | numbers
  | symbols
deriving DecidableEq, Repr

/-- `getCharacterType` from `markovGenerator.ts`; the `null` branch is kept
for faithfulness although `isSymbol` is a catch-all, so it is unreachable. -/
def getCharacterType (c : Char) : Option CharCategory :=
  if isUppercaseChar c then some .uppercase
  else if isLowercaseChar c then some .lowercase
  else if isNumberChar c then some .numbers
  else if isSymbolChar c then some .symbols
  else none

theorem getCharacterType_isSome (c : Char) : (getCharacterType c).isSome := by
  unfold getCharacterType isSymbolChar
  cases hu : isUppercaseChar c <;> cases hl : isLowercaseChar c <;>
    cases hn : isNumberChar c <;> simp [hu, hl, hn]

/-! ## The pseudo-random source

`Math.random()` is modelled as an infinite sequence of rationals together
with a read position; every call returns the value at the current position
and advances it. -/

structure Rng where
  seq : Nat → ℚ
  pos : Nat

/-- One call to `Math.random()`. -/
def Rng.next (r : Rng) : ℚ × Rng := (r.seq r.pos, ⟨r.seq, r.pos + 1⟩)

/-- Every draw of the stream lies in `[0, 1)`, as `Math.random()` guarantees. -/
def ValidSeq (f : Nat → ℚ) : Prop := ∀ i, 0 ≤ f i ∧ f i < 1

/-- `Math.floor(q * n)` for a draw `q` and a bound `n`, as a natural number. -/
def randIndex (q : ℚ) (n : Nat) : Nat := (⌊q * n⌋).toNat

theorem randIndex_lt {q : ℚ} (h0 : 0 ≤ q) (h1 : q < 1) {n : Nat}
    (hn : 0 < n) : randIndex q n < n := by
  have hmul : q * n < n := by
    have := mul_lt_mul_of_pos_right h1 (by exact_mod_cast hn : (0:ℚ) < n)
    simpa using this
  have hfloor : ⌊q * n⌋ < (n : ℤ) := Int.floor_lt.mpr (by exact_mod_cast hmul)
  have hpos : (0 : ℤ) ≤ ⌊q * n⌋ := Int.floor_nonneg.mpr (by positivity)
  unfold randIndex
  omega

/-! ## Character pools (markovGenerator.ts) -/

/-- `filterCharsForConfig` : remove similar and ambiguous characters when the
corresponding flags are set. -/
def filterCharsForConfig (chars : List Char) (cfg : PasswordGeneratorConfig) :
    List Char :=
  let f1 := if cfg.avoidSimilar then chars.filter (fun c => !(c ∈ similarChars : Bool)) else chars
  if cfg.avoidAmbiguous then f1.filter (fun c => !(c ∈ ambiguousChars : Bool)) else f1

/-- Union of the enabled category sets, in source order (lowercase,
uppercase, numbers, symbols). -/
def basePoolRaw (cfg : PasswordGeneratorConfig) : List Char :=
  (if cfg.includeLowercase then lowercaseChars else []) ++
  (if cfg.includeUppercase then uppercaseChars else []) ++
  (if cfg.includeNumbers then numberChars else []) ++
  (if cfg.includeSymbols then symbolChars else [])

/-- The pool before filtering; `if (pool.length === 0) pool = lowercase`. -/
def basePool (cfg : PasswordGeneratorConfig) : List Char :=
  if (basePoolRaw cfg).isEmpty then lowercaseChars else basePoolRaw cfg

/-- `buildAllowedCharacterPool` : the filtered pool, or the unfiltered pool if
filtering would empty it. -/
def buildAllowedCharacterPool (cfg : PasswordGeneratorConfig) : List Char :=
  if 0 < (filterCharsForConfig (basePool cfg) cfg).length
  then filterCharsForConfig (basePool cfg) cfg
  else basePool cfg

/-- `getRandomFromPool` : returns `"a"` on an empty pool without drawing,
otherwise draws once and indexes; out-of-range indices (unreachable for valid
draws) fall back to the first element as `pool[index] ?? pool[0] ?? "a"`. -/
def getRandomFromPool (pool : List Char) (r : Rng) : Char × Rng :=
  if pool.isEmpty then ('a', r)
  else (pool.getD (randIndex r.next.1 pool.length) (pool.headD 'a'), r.next.2)

/-- `getRandomFromChars` : filter the category for the config, falling back to
the unfiltered list if filtering empties it. -/
def getRandomFromChars (chars : List Char) (cfg : PasswordGeneratorConfig)
    (r : Rng) : Char × Rng :=
  let filtered := filterCharsForConfig chars cfg
  let pool := if filtered.length > 0 then filtered else chars
  getRandomFromPool pool r

/-- `getRandomCharacter` : draw from the full allowed pool. -/
def getRandomCharacter (cfg : PasswordGeneratorConfig) (r : Rng) : Char × Rng :=
  getRandomFromPool (buildAllowedCharacterPool cfg) r

theorem headD_mem {l : List Char} (h : l ≠ []) (d : Char) : l.headD d ∈ l := by
  cases l with
  | nil => exact absurd rfl h
  | cons a t => simp [List.headD]

theorem getD_mem_of_mem {l : List Char} {d : Char} (hd : d ∈ l) (i : Nat) :
    l.getD i d ∈ l := by
  rcases Nat.lt_or_ge i l.length with hlt | hge
  · rw [List.getD_eq_getElem _ _ hlt]
    exact List.getElem_mem hlt
  · rw [List.getD_eq_default _ _ hge]
    exact hd

theorem getRandomFromPool_mem {pool : List Char} (h : pool ≠ []) (r : Rng) :
    (getRandomFromPool pool r).1 ∈ pool := by
  unfold getRandomFromPool
  rw [if_neg (by simpa [List.isEmpty_iff] using h)]
  exact getD_mem_of_mem (headD_mem h 'a') _

theorem filterCharsForConfig_subset {chars : List Char}
    (cfg : PasswordGeneratorConfig) {c : Char}
    (hc : c ∈ filterCharsForConfig chars cfg) : c ∈ chars := by
  unfold filterCharsForConfig at hc
  cases hs : cfg.avoidSimilar <;> cases ha : cfg.avoidAmbiguous <;>
    simp [hs, ha, List.mem_filter] at hc <;> tauto

theorem mem_filterCharsForConfig {c : Char} {l : List Char}
    {cfg : PasswordGeneratorConfig} :
    c ∈ filterCharsForConfig l cfg ↔
      c ∈ l ∧ (cfg.avoidSimilar = true → c ∉ similarChars) ∧
        (cfg.avoidAmbiguous = true → c ∉ ambiguousChars) := by
  unfold filterCharsForConfig
  cases hs : cfg.avoidSimilar <;> cases ha : cfg.avoidAmbiguous <;>
    (simp [List.mem_filter]; try tauto)

theorem lowercase_filter_pos (cfg : PasswordGeneratorConfig) :
    0 < (filterCharsForConfig lowercaseChars cfg).length := by
  unfold filterCharsForConfig
  cases hs : cfg.avoidSimilar <;> cases ha : cfg.avoidAmbiguous <;>
    simp only [hs, ha, if_true, if_false, Bool.false_eq_true] <;> decide

theorem uppercase_filter_pos (cfg : PasswordGeneratorConfig) :
    0 < (filterCharsForConfig uppercaseChars cfg).length := by
  unfold filterCharsForConfig
  cases hs : cfg.avoidSimilar <;> cases ha : cfg.avoidAmbiguous <;>
    simp only [hs, ha, if_true, if_false, Bool.false_eq_true] <;> decide

theorem numbers_filter_pos (cfg : PasswordGeneratorConfig) :
    0 < (filterCharsForConfig numberChars cfg).length := by
  unfold filterCharsForConfig
  cases hs : cfg.avoidSimilar <;> cases ha : cfg.avoidAmbiguous <;>
    simp only [hs, ha, if_true, if_false, Bool.false_eq_true] <;> decide

theorem symbols_filter_pos (cfg : PasswordGeneratorConfig) :
    0 < (filterCharsForConfig symbolChars cfg).length := by
  unfold filterCharsForConfig
  cases hs : cfg.avoidSimilar <;> cases ha : cfg.avoidAmbiguous <;>
    simp only [hs, ha, if_true, if_false, Bool.false_eq_true] <;> decide

theorem basePool_ne_nil (cfg : PasswordGeneratorConfig) :
    basePool cfg ≠ [] := by
  unfold basePool
  split
  · decide
  · next hne => simpa [List.isEmpty_iff] using hne

theorem buildAllowedCharacterPool_ne_nil (cfg : PasswordGeneratorConfig) :
    buildAllowedCharacterPool cfg ≠ [] := by
  unfold buildAllowedCharacterPool
  split
  · next hlen => exact List.ne_nil_of_length_pos hlen
  · exact basePool_ne_nil cfg

/-- A character of an enabled category that survives the config filter lies in
the allowed pool. -/
theorem filtered_category_subset_pool {cfg : PasswordGeneratorConfig}
    {cat : List Char} {c : Char} (hsub : ∀ x ∈ cat, x ∈ basePoolRaw cfg)
    (hc : c ∈ filterCharsForConfig cat cfg) :
    c ∈ buildAllowedCharacterPool cfg := by
  rw [mem_filterCharsForConfig] at hc
  obtain ⟨hmem, hsim, hamb⟩ := hc
  have hbase : c ∈ basePool cfg := by
    unfold basePool
    split
    · next hemp =>
      rw [List.isEmpty_iff] at hemp
      have := hsub c hmem
      rw [hemp] at this
      simp at this
    · exact hsub c hmem
  unfold buildAllowedCharacterPool
  split
  · exact mem_filterCharsForConfig.mpr ⟨hbase, hsim, hamb⟩
  · exact hbase

/-- Output of `getRandomFromChars` on a category whose filtered form is
non-empty stays inside the filtered category. -/
theorem getRandomFromChars_mem_filtered {chars : List Char}
    {cfg : PasswordGeneratorConfig}
    (hpos : 0 < (filterCharsForConfig chars cfg).length) (r : Rng) :
    (getRandomFromChars chars cfg r).1 ∈ filterCharsForConfig chars cfg := by
  unfold getRandomFromChars
  dsimp only
  rw [if_pos hpos]
  exact getRandomFromPool_mem (List.ne_nil_of_length_pos hpos) r

/-! ## The security estimator (identical `calculateEntropy` methods in
`randomGenerator.ts` and `markovGenerator.ts`) -/

/-- `getCharacterSetSizeFromPassword` : number of distinct characters. -/
def getCharacterSetSizeFromPassword (pw : List Char) : Nat := pw.dedup.length

/-- The `theoreticalSize` computed inside `calculateEntropy`: 26 for a
lowercase match, 26 for uppercase, 10 for digits, 32 for any other
character. -/
def theoreticalSize (pw : List Char) : Nat :=
  (if pw.any isLowercaseChar then 26 else 0) +
  (if pw.any isUppercaseChar then 26 else 0) +
  (if pw.any isNumberChar then 10 else 0) +
  (if pw.any (fun c => !(isLowercaseChar c || isUppercaseChar c || isNumberChar c))
    then 32 else 0)

/-- The effective alphabet size whose base-2 logarithm `calculateEntropy`
multiplies by the length: `max(observed, theoretical)` below 26 distinct
characters, the observed count otherwise. -/
def effectiveEntropySize (pw : List Char) : Nat :=
  if getCharacterSetSizeFromPassword pw < 26
  then max (getCharacterSetSizeFromPassword pw) (theoreticalSize pw)
  else getCharacterSetSizeFromPassword pw

/-- `calculateEntropy` : `password.length * Math.log2(effectiveSize)` as a
float. The float is non-finite (modelled `none`) exactly when the effective
size is 0, i.e. for the empty string, where the code computes
`0 * Math.log2(0) = 0 * (-Infinity) = NaN`. -/
noncomputable def calculateEntropy (pw : List Char) : Option ℝ :=
  if effectiveEntropySize pw = 0 then none
  else some ((pw.length : ℝ) * Real.logb 2 (effectiveEntropySize pw))

/-- Decidable reflection of the float test `calculateEntropy(pw) < 60` used by
both generators (`NaN < 60` is `false` in JavaScript, matching the first
conjunct); `entropyLt60_iff` proves it equal to the real comparison. -/
def entropyLt60 (pw : List Char) : Bool :=
  decide (effectiveEntropySize pw ≠ 0 ∧
    (effectiveEntropySize pw) ^ pw.length < 2 ^ 60)

theorem logb_nat_lt_iff {m : Nat} (hm : 1 ≤ m) (l k : Nat) :
    (l : ℝ) * Real.logb 2 m < k ↔ m ^ l < 2 ^ k := by
  have hm0 : (0:ℝ) < (m:ℝ) := by exact_mod_cast hm
  rw [show (l : ℝ) * Real.logb 2 (m:ℝ) = Real.logb 2 ((m:ℝ) ^ l) by
        rw [Real.logb_pow],
      show ((k : ℕ) : ℝ) = Real.logb 2 ((2:ℝ) ^ k) by
        rw [Real.logb_pow, Real.logb_self_eq_one (by norm_num)]
        ring,
      Real.logb_lt_logb_iff (by norm_num) (by positivity) (by positivity)]
  constructor
  · intro h
    exact_mod_cast h
  · intro h
    exact_mod_cast h

theorem entropyLt60_iff (pw : List Char) :
    entropyLt60 pw = true ↔
      ∃ e, calculateEntropy pw = some e ∧ e < 60 := by
  unfold entropyLt60 calculateEntropy
  rcases Nat.eq_zero_or_pos (effectiveEntropySize pw) with h0 | hpos
  · simp [h0]
  · rw [if_neg (Nat.pos_iff_ne_zero.mp hpos)]
    simp only [decide_eq_true_eq, ne_eq, Nat.pos_iff_ne_zero.mp hpos,
      not_false_eq_true, true_and, Option.some.injEq]
    constructor
    · intro h
      refine ⟨_, rfl, ?_⟩
      have := (logb_nat_lt_iff hpos pw.length 60).mpr h
      exact_mod_cast this
    · rintro ⟨e, he, hlt⟩
      rw [← he] at hlt
      have := (logb_nat_lt_iff hpos pw.length 60).mp (by exact_mod_cast hlt)
      exact this

/-- `Math.ceil(60 / Math.log2(n))` for a pool size `n`: the least `k ≤ 60`
with `2 ^ 60 ≤ n ^ k`, which is that ceiling for every `2 ≤ n` (see
`neededLen_eq_ceil`), and `0` at `n = 0` matching `Math.ceil(-0) = 0` in the
source (`60 / log2(0) = 60 / -Infinity = -0`); `n = 1` is unreachable, the
reachable pool sizes being `0, 10, 26, ...`. -/
def neededLen (n : Nat) : Nat :=
  (((List.range 61).find? (fun k => 2 ^ 60 ≤ n ^ k)).getD 0)

theorem find?_range_least {p : Nat → Bool} {N k : Nat}
    (h : (List.range N).find? p = some k) :
    p k = true ∧ ∀ j, j < k → p j = false := by
  rw [List.find?_eq_some] at h
  obtain ⟨hpk, as, bs, heq, hall⟩ := h
  have hlen : as.length < N := by
    have := congrArg List.length heq
    simp at this
    omega
  have hk : k = as.length := by
    have h1 : (List.range N)[as.length]? = some k := by
      rw [heq, List.getElem?_append_right (le_refl as.length)]
      simp
    rw [List.getElem?_range hlen] at h1
    exact (Option.some.injEq _ _).mp h1.symm
  have has : as = List.range as.length := by
    have h2 := congrArg (List.take as.length) heq
    rw [List.take_range, List.take_left, Nat.min_eq_left (le_of_lt hlen)] at h2
    exact h2.symm
  refine ⟨hpk, fun j hj => ?_⟩
  have hjmem : j ∈ as := by
    rw [has, List.mem_range]
    omega
  simpa using hall _ hjmem

theorem neededLen_spec {n : Nat} (hn : 2 ≤ n) :
    2 ^ 60 ≤ n ^ neededLen n ∧ ∀ j, j < neededLen n → n ^ j < 2 ^ 60 := by
  have hex : ((List.range 61).find? (fun k => 2 ^ 60 ≤ n ^ k)).isSome := by
    rw [List.find?_isSome]
    exact ⟨60, by simp [List.mem_range],
      by simpa using Nat.pow_le_pow_left hn 60⟩
  obtain ⟨k, hk⟩ := Option.isSome_iff_exists.mp hex
  have hspec := find?_range_least hk
  unfold neededLen
  rw [hk, Option.getD_some]
  refine ⟨by simpa using hspec.1, fun j hj => ?_⟩
  have := hspec.2 j hj
  simpa using this

/-- The executable `neededLen` coincides with `Math.ceil(60 / Math.log2(n))`
for every pool size `n ≥ 2`, justifying the embedding of the entropy-extension
length computation. -/
theorem neededLen_eq_ceil {n : Nat} (hn : 2 ≤ n) :
    (neededLen n : ℤ) = ⌈(60 : ℝ) / Real.logb 2 n⌉ := by
  obtain ⟨h1, h2⟩ := neededLen_spec hn
  have hn1 : (1:ℝ) < (n:ℝ) := by exact_mod_cast hn
  have hlog : 0 < Real.logb 2 (n:ℝ) := Real.logb_pos (by norm_num) hn1
  have key : ∀ k : Nat, (2 ^ 60 ≤ n ^ k) ↔ ((60 : ℝ) / Real.logb 2 n ≤ k) := by
    intro k
    rw [div_le_iff₀ hlog]
    constructor
    · intro h
      by_contra hlt
      push_neg at hlt
      have := (logb_nat_lt_iff (by omega) k 60).mp hlt
      omega
    · intro h
      by_contra hlt
      push_neg at hlt
      have := (logb_nat_lt_iff (by omega) k 60).mpr hlt
      push_cast at this
      linarith
  have hN1 : 1 ≤ neededLen n := by
    rcases Nat.eq_zero_or_pos (neededLen n) with h0 | hpos
    · rw [h0] at h1
      norm_num at h1
    · exact hpos
  symm
  rw [Int.ceil_eq_iff]
  constructor
  · have hlt := h2 (neededLen n - 1) (by omega)
    have : ¬ ((60 : ℝ) / Real.logb 2 n ≤ (neededLen n - 1 : ℕ)) := by
      rw [← key]
      omega
    push_neg at this
    have hcast : ((neededLen n - 1 : ℕ) : ℝ) = ((neededLen n : ℤ) : ℝ) - 1 := by
      push_cast [Nat.cast_sub hN1]
      ring
    rw [hcast] at this
    exact this
  · have := (key (neededLen n)).mp h1
    exact_mod_cast this

/-! ## Markov model state and sampling (markovGenerator.ts) -/

/-- The generator state after training: the transition map
`state -> (nextChar -> probability)` and the start-state map, both as
insertion-ordered association lists mirroring JavaScript `Map` iteration
order, plus the model order. -/
structure MarkovModel where
  model : List (List Char × List (Char × ℚ))
  startStates : List (List Char × ℚ)
  order : Nat
  trainingData : List (List Char)
deriving DecidableEq, Repr

/-- `this.model.get(currentState)` : first association with the given key. -/
def lookupState (m : List (List Char × List (Char × ℚ))) (s : List Char) :
    Option (List (Char × ℚ)) :=
  match m with
  | [] => none
  | (k, v) :: t => if k = s then some v else lookupState t s

/-- The cumulative-probability walk shared by `selectRandomStartState` and
`selectNextCharacter`: return the first entry whose accumulated mass reaches
the draw. -/
def selectCumulative {α : Type} (q : ℚ) : ℚ → List (α × ℚ) → Option α
  | _, [] => none
  | cum, (a, p) :: t =>
      if q ≤ cum + p then some a else selectCumulative q (cum + p) t

/-- `selectRandomStartState` : inverse-CDF draw over the start states, falling
back to the first key (or `"a"`) if accumulation never reaches the draw. -/
def selectRandomStartState (m : MarkovModel) (r : Rng) : List Char × Rng :=
  let q := r.next.1
  match selectCumulative q 0 m.startStates with
  | some s => (s, r.next.2)
  | none => ((m.startStates.map Prod.fst).headD ['a'], r.next.2)

/-- `selectNextCharacter` : `null` without drawing when the state is absent or
has no outgoing transitions, otherwise an inverse-CDF draw that may come back
`null` on rounding shortfall. -/
def selectNextCharacter (m : MarkovModel) (s : List Char) (r : Rng) :
    Option Char × Rng :=
  match lookupState m.model s with
  | none => (none, r)
  | some ts =>
      if ts.isEmpty then (none, r)
      else (selectCumulative r.next.1 0 ts, r.next.2)

/-- The chain-extension loop of `generateBasePassword`: grow the password one
sampled character at a time, tracking the trailing `order` characters as the
current state, until the target length is reached or sampling dead-ends.
Structural recursion on the decreasing measure `maxLen - pw.length` (the
first argument, supplied by `chainLoop`; the loop guard is still the
source's length test, and the measure is exact since every iteration adds
one character). -/
def chainLoopAux (m : MarkovModel) (maxLen : Nat) :
    Nat → List Char → List Char → Rng → List Char × Rng
  | 0, pw, _, r => (pw, r)
  | k + 1, pw, st, r =>
      if pw.length < maxLen then
        match selectNextCharacter m st r with
        | (none, r1) => (pw, r1)
        | (some c, r1) =>
            chainLoopAux m maxLen k (pw ++ [c])
              ((pw ++ [c]).drop ((pw ++ [c]).length - m.order)) r1
      else (pw, r)

def chainLoop (m : MarkovModel) (maxLen : Nat) (pw st : List Char) (r : Rng) :
    List Char × Rng :=
  chainLoopAux m maxLen (maxLen - pw.length) pw st r

/-- The minimum-length padding loop of `generateBasePassword`; structural
recursion on the exact measure `cfg.length - pw.length`. -/
def padLoopAux (cfg : PasswordGeneratorConfig) :
    Nat → List Char → Rng → List Char × Rng
  | 0, pw, r => (pw, r)
  | k + 1, pw, r =>
      if pw.length < cfg.length then
        padLoopAux cfg k (pw ++ [(getRandomCharacter cfg r).1])
          (getRandomCharacter cfg r).2
      else (pw, r)

def padLoop (cfg : PasswordGeneratorConfig) (pw : List Char) (r : Rng) :
    List Char × Rng :=
  padLoopAux cfg (cfg.length - pw.length) pw r

/-- `generateBasePassword` : `none` models the `UntrainedModelError` throw on
an empty model; otherwise start-state draw, chain extension, padding. -/
def generateBasePassword (m : MarkovModel) (cfg : PasswordGeneratorConfig)
    (r : Rng) : Option (List Char) × Rng :=
  if m.model.isEmpty then (none, r)
  else
    let s1 := selectRandomStartState m r
    let s2 := chainLoop m cfg.length s1.1 s1.1 s1.2
    let s3 := padLoop cfg s2.1 s2.2
    (some s3.1, s3.2)

/-! ## Markov post-processing -/

/-- The character-wise replacement pass of `sanitizeToAllowedCharacters`. -/
def sanitizeChars (pool : List Char) : List Char → Rng → List Char × Rng
  | [], r => ([], r)
  | c :: t, r =>
      let s1 := if c ∈ pool then (c, r) else getRandomFromPool pool r
      let s2 := sanitizeChars pool t s1.2
      (s1.1 :: s2.1, s2.2)

/-- `sanitizeToAllowedCharacters` : replace every disallowed character by a
pool draw, then truncate to the configured length; `none` models the throw on
an empty pool (unreachable, see `buildAllowedCharacterPool_ne_nil`). -/
def sanitizeToAllowedCharacters (pw : List Char)
    (cfg : PasswordGeneratorConfig) (r : Rng) : Option (List Char) × Rng :=
  let pool := buildAllowedCharacterPool cfg
  if pool.isEmpty then (none, r)
  else
    let s1 := sanitizeChars pool pw r
    (some (s1.1.take cfg.length), s1.2)

/-- One `ensureCategory` closure call of the Markov
`ensureCharacterCategories`: overwrite a random position with a category draw
when the category is required but absent. -/
def ensureCategory (required : Bool) (pred : Char → Bool) (poolChars : List Char)
    (cfg : PasswordGeneratorConfig) (chars : List Char) (r : Rng) :
    List Char × Rng :=
  if !required then (chars, r)
  else if chars.any pred then (chars, r)
  else if chars.length = 0 then (chars, r)
  else
    let i := randIndex r.next.1 chars.length
    let s1 := getRandomFromChars poolChars cfg r.next.2
    (chars.set i s1.1, s1.2)

/-- `ensureCharacterCategories` (Markov version): one pass per category, each
seeing the mutations of the previous ones. -/
def ensureCharacterCategoriesM (pw : List Char) (cfg : PasswordGeneratorConfig)
    (r : Rng) : List Char × Rng :=
  let s1 := ensureCategory cfg.includeUppercase isUppercaseChar uppercaseChars cfg pw r
  let s2 := ensureCategory cfg.includeLowercase isLowercaseChar lowercaseChars cfg s1.1 s1.2
  let s3 := ensureCategory cfg.includeNumbers isNumberChar numberChars cfg s2.1 s2.2
  ensureCategory cfg.includeSymbols isSymbolChar symbolChars cfg s3.1 s3.2

/-- The per-category counts tracked by `ensureRequiredCharacters`, as a
function on categories. -/
def countsOf (chars : List Char) : CharCategory → Nat := fun t =>
  match t with
  | .uppercase => (chars.filter isUppercaseChar).length
  | .lowercase => (chars.filter isLowercaseChar).length
  | .numbers => (chars.filter isNumberChar).length
  | .symbols => (chars.filter isSymbolChar).length

/-- The `minimums` object: 1 per enabled letter case, 2 for enabled numbers
and symbols. -/
def minimums (cfg : PasswordGeneratorConfig) : CharCategory → Nat := fun t =>
  match t with
  | .uppercase => if cfg.includeUppercase then 1 else 0
  | .lowercase => if cfg.includeLowercase then 1 else 0
  | .numbers => if cfg.includeNumbers then 2 else 0
  | .symbols => if cfg.includeSymbols then 2 else 0

/-- `canReplace` : an out-of-range index is not replaceable, an untyped
character is, a character of the target type is not, and any other character
only if its category stays at or above its minimum
(`counts[t] - 1 >= minimums[t]`, written `minimums[t] + 1 <= counts[t]` to
avoid truncated subtraction). -/
def canReplace (chars : List Char) (counts : CharCategory → Nat)
    (mins : CharCategory → Nat) (target : CharCategory) (i : Nat) : Bool :=
  match chars.get? i with
  | none => false
  | some c =>
      match getCharacterType c with
      | none => true
      | some t =>
          if t = target then false
          else decide (mins t + 1 ≤ counts t)

/-- The bounded random search of `findReplacementIndex` (`length * 2`
attempts). -/
def findAttempts (chars : List Char) (counts mins : CharCategory → Nat)
    (target : CharCategory) : Nat → Rng → Option Nat × Rng
  | 0, r => (none, r)
  | n + 1, r =>
      let i := randIndex r.next.1 chars.length
      if canReplace chars counts mins target i then (some i, r.next.2)
      else findAttempts chars counts mins target n r.next.2

/-- The exhaustive scan of `findReplacementIndex`. -/
def scanIndex (chars : List Char) (counts mins : CharCategory → Nat)
    (target : CharCategory) : Option Nat :=
  (List.range chars.length).find? (fun i => canReplace chars counts mins target i)

/-- `findReplacementIndex` : bounded random attempts, then an exhaustive scan,
then an unconditional random index. -/
def findReplacementIndex (chars : List Char) (counts mins : CharCategory → Nat)
    (target : CharCategory) (r : Rng) : Nat × Rng :=
  match findAttempts chars counts mins target (chars.length * 2) r with
  | (some i, r1) => (i, r1)
  | (none, r1) =>
      match scanIndex chars counts mins target with
      | some i => (i, r1)
      | none => (randIndex r1.next.1 chars.length, r1.next.2)

/-- `replaceChar` : decrement the count of the replaced character's category,
overwrite, increment the target category. The count of a present category is
positive whenever `counts` is accurate, so natural subtraction is exact. -/
def replaceCharOp (chars : List Char) (counts : CharCategory → Nat) (i : Nat)
    (newChar : Char) (newType : CharCategory) :
    List Char × (CharCategory → Nat) :=
  let counts1 :=
    match chars.get? i with
    | none => counts
    | some c =>
        match getCharacterType c with
        | none => counts
        | some t => fun u => if u = t then counts u - 1 else counts u
  (chars.set i newChar, fun u => if u = newType then counts1 u + 1 else counts1 u)

/-- The `while (counts[type] < required)` replacement loop of `ensureType`,
with explicit fuel; `none` means the loop has not finished within `fuel`
iterations (the loop genuinely diverges for some inputs, see the C7
counterexample). -/
def ensureTypeLoop (cfg : PasswordGeneratorConfig) (target : CharCategory)
    (pool : List Char) (mins : CharCategory → Nat) :
    Nat → List Char → (CharCategory → Nat) → Rng →
      Option (List Char × (CharCategory → Nat)) × Rng
  | 0, _, _, r => (none, r)
  | fuel + 1, chars, counts, r =>
      if counts target < mins target then
        let s1 := findReplacementIndex chars counts mins target r
        let s2 := getRandomFromChars pool cfg s1.2
        let s3 := replaceCharOp chars counts s1.1 s2.1 target
        ensureTypeLoop cfg target pool mins fuel s3.1 s3.2 s2.2
      else (some (chars, counts), r)

/-- `ensureRequiredCharacters` : count categories, then enforce the symbol
minimum and the number minimum in that order. -/
def ensureRequiredCharacters (fuel : Nat) (pw : List Char)
    (cfg : PasswordGeneratorConfig) (r : Rng) : Option (List Char) × Rng :=
  let mins := minimums cfg
  let s1 :=
    if cfg.includeSymbols then
      ensureTypeLoop cfg .symbols symbolChars mins fuel pw (countsOf pw) r
    else (some (pw, countsOf pw), r)
  match s1 with
  | (none, r1) => (none, r1)
  | (some (chars1, counts1), r1) =>
      let s2 :=
        if cfg.includeNumbers then
          ensureTypeLoop cfg .numbers numberChars mins fuel chars1 counts1 r1
        else (some (chars1, counts1), r1)
      match s2 with
      | (none, r2) => (none, r2)
      | (some (chars2, _), r2) => (some chars2, r2)

/-- The extension loop of the Markov `addEntropy`; structural recursion on
the exact measure `maxLen - pw.length`. -/
def extendLoopAux (maxLen : Nat) (cfg : PasswordGeneratorConfig) :
    Nat → List Char → Rng → List Char × Rng
  | 0, pw, r => (pw, r)
  | k + 1, pw, r =>
      if pw.length < maxLen then
        extendLoopAux maxLen cfg k (pw ++ [(getRandomCharacter cfg r).1])
          (getRandomCharacter cfg r).2
      else (pw, r)

def extendLoop (maxLen : Nat) (cfg : PasswordGeneratorConfig) (pw : List Char)
    (r : Rng) : List Char × Rng :=
  extendLoopAux maxLen cfg (maxLen - pw.length) pw r

/-- `getCharacterSetSize` : sum of the sizes of the enabled categories. -/
def getCharacterSetSize (cfg : PasswordGeneratorConfig) : Nat :=
  (if cfg.includeLowercase then lowercaseChars.length else 0) +
  (if cfg.includeUppercase then uppercaseChars.length else 0) +
  (if cfg.includeNumbers then numberChars.length else 0) +
  (if cfg.includeSymbols then symbolChars.length else 0)

/-- `addEntropy` (Markov version): extend with pool draws up to
`min(neededLength, config.length)` when the entropy is below 60 bits and the
password is short of both bounds, then truncate to the configured length. -/
def addEntropyMarkov (pw : List Char) (cfg : PasswordGeneratorConfig)
    (r : Rng) : List Char × Rng :=
  let s1 :=
    if entropyLt60 pw then
      let needed := neededLen (getCharacterSetSize cfg)
      if pw.length < needed ∧ pw.length < cfg.length then
        extendLoop (min needed cfg.length) cfg pw r
      else (pw, r)
    else (pw, r)
  (s1.1.take cfg.length, s1.2)

/-- `applySecurityImprovements` : sanitize, ensure category presence, enforce
minimum counts, add entropy when below the 60-bit floor. -/
def applySecurityImprovements (fuel : Nat) (pw : List Char)
    (cfg : PasswordGeneratorConfig) (r : Rng) : Option (List Char) × Rng :=
  match sanitizeToAllowedCharacters pw cfg r with
  | (none, r1) => (none, r1)
  | (some pw1, r1) =>
      let s2 := ensureCharacterCategoriesM pw1 cfg r1
      match ensureRequiredCharacters fuel s2.1 cfg s2.2 with
      | (none, r3) => (none, r3)
      | (some pw3, r3) =>
          if entropyLt60 pw3 then
            let s4 := addEntropyMarkov pw3 cfg r3
            (some s4.1, s4.2)
          else (some pw3, r3)

/-- `generatePassword` of `MarkovPasswordGenerator`, restricted to the
password string (the record wraps it with the estimator outputs, modelled
separately); `none` models a throw or exhausted replacement-loop fuel. -/
def markovGeneratePassword (fuel : Nat) (m : MarkovModel)
    (cfg : PasswordGeneratorConfig) (r : Rng) : Option (List Char) × Rng :=
  match generateBasePassword m cfg r with
  | (none, r1) => (none, r1)
  | (some pw, r1) => applySecurityImprovements fuel pw cfg r1

/-! ## Length preservation through the Markov pipeline -/

theorem padLoopAux_length (cfg : PasswordGeneratorConfig) :
    ∀ (k : Nat) (pw : List Char) (r : Rng), cfg.length - pw.length ≤ k →
      (padLoopAux cfg k pw r).1.length = max pw.length cfg.length := by
  intro k
  induction k with
  | zero =>
      intro pw r hk
      simp only [padLoopAux]
      omega
  | succ n ih =>
      intro pw r hk
      rw [padLoopAux]
      split
      · next h =>
          rw [ih _ _ (by simp; omega)]
          simp
          omega
      · next h =>
          simp at h ⊢
          omega

theorem padLoop_length (cfg : PasswordGeneratorConfig) (pw : List Char)
    (r : Rng) : (padLoop cfg pw r).1.length = max pw.length cfg.length :=
  padLoopAux_length cfg _ pw r (le_refl _)

theorem extendLoopAux_length (maxLen : Nat) (cfg : PasswordGeneratorConfig) :
    ∀ (k : Nat) (pw : List Char) (r : Rng), maxLen - pw.length ≤ k →
      (extendLoopAux maxLen cfg k pw r).1.length = max pw.length maxLen := by
  intro k
  induction k with
  | zero =>
      intro pw r hk
      simp only [extendLoopAux]
      omega
  | succ n ih =>
      intro pw r hk
      rw [extendLoopAux]
      split
      · next h =>
          rw [ih _ _ (by simp; omega)]
          simp
          omega
      · next h =>
          simp at h ⊢
          omega

theorem extendLoop_length (maxLen : Nat) (cfg : PasswordGeneratorConfig)
    (pw : List Char) (r : Rng) :
    (extendLoop maxLen cfg pw r).1.length = max pw.length maxLen :=
  extendLoopAux_length maxLen cfg _ pw r (le_refl _)

theorem generateBasePassword_length {m : MarkovModel}
    {cfg : PasswordGeneratorConfig} {r : Rng} {pw : List Char}
    (h : (generateBasePassword m cfg r).1 = some pw) :
    cfg.length ≤ pw.length := by
  unfold generateBasePassword at h
  split at h
  · simp at h
  · simp only [Option.some.injEq] at h
    rw [← h, padLoop_length]
    omega

theorem sanitizeChars_length (pool : List Char) (l : List Char) (r : Rng) :
    (sanitizeChars pool l r).1.length = l.length := by
  induction l generalizing r with
  | nil => rfl
  | cons c t ih => simp [sanitizeChars, ih]

theorem sanitizeToAllowedCharacters_length {pw : List Char}
    {cfg : PasswordGeneratorConfig} {r : Rng} {out : List Char}
    (h : (sanitizeToAllowedCharacters pw cfg r).1 = some out) :
    out.length = min cfg.length pw.length := by
  unfold sanitizeToAllowedCharacters at h
  dsimp only at h
  split at h
  · simp at h
  · simp only [Option.some.injEq] at h
    rw [← h]
    simp [sanitizeChars_length]

theorem ensureCategory_length (required : Bool) (pred : Char → Bool)
    (poolChars : List Char) (cfg : PasswordGeneratorConfig)
    (chars : List Char) (r : Rng) :
    (ensureCategory required pred poolChars cfg chars r).1.length =
      chars.length := by
  unfold ensureCategory
  split
  · rfl
  · split
    · rfl
    · split
      · rfl
      · simp

theorem ensureCharacterCategoriesM_length (pw : List Char)
    (cfg : PasswordGeneratorConfig) (r : Rng) :
    (ensureCharacterCategoriesM pw cfg r).1.length = pw.length := by
  unfold ensureCharacterCategoriesM
  simp [ensureCategory_length]

theorem replaceCharOp_length (chars : List Char) (counts : CharCategory → Nat)
    (i : Nat) (c : Char) (t : CharCategory) :
    (replaceCharOp chars counts i c t).1.length = chars.length := by
  unfold replaceCharOp
  simp

theorem ensureTypeLoop_length {cfg : PasswordGeneratorConfig}
    {target : CharCategory} {pool : List Char} {mins : CharCategory → Nat} :
    ∀ {fuel : Nat} {chars : List Char} {counts : CharCategory → Nat} {r : Rng}
      {out : List Char × (CharCategory → Nat)},
      (ensureTypeLoop cfg target pool mins fuel chars counts r).1 = some out →
      out.1.length = chars.length := by
  intro fuel
  induction fuel with
  | zero => intro chars counts r out h; simp [ensureTypeLoop] at h
  | succ n ih =>
      intro chars counts r out h
      rw [ensureTypeLoop] at h
      split at h
      · have := ih h
        rw [this, replaceCharOp_length]
      · simp only [Option.some.injEq] at h
        rw [← h]

theorem ensureRequiredCharacters_length {fuel : Nat} {pw : List Char}
    {cfg : PasswordGeneratorConfig} {r : Rng} {out : List Char}
    (h : (ensureRequiredCharacters fuel pw cfg r).1 = some out) :
    out.length = pw.length := by
  unfold ensureRequiredCharacters at h
  dsimp only at h
  split at h
  · simp at h
  · next chars1 counts1 r1 heq1 =>
      split at h
      · simp at h
      · next chars2 counts2 r2 heq2 =>
          simp only [Option.some.injEq] at h
          subst h
          have h1 : chars1.length = pw.length := by
            by_cases hs : cfg.includeSymbols
            · have := congrArg Prod.fst heq1
              simp [hs] at this
              exact ensureTypeLoop_length (by rw [this])
            · have := congrArg Prod.fst heq1
              simp [hs] at this
              rw [← this.1]
          have h2 : chars2.length = chars1.length := by
            by_cases hn : cfg.includeNumbers
            · have := congrArg Prod.fst heq2
              simp [hn] at this
              exact ensureTypeLoop_length (by rw [this])
            · have := congrArg Prod.fst heq2
              simp [hn] at this
              rw [← this.1]
          omega

theorem addEntropyMarkov_length {pw : List Char}
    {cfg : PasswordGeneratorConfig} (r : Rng)
    (h : pw.length = cfg.length) :
    (addEntropyMarkov pw cfg r).1.length = cfg.length := by
  unfold addEntropyMarkov
  dsimp only
  split
  · split
    · next hcond =>
      simp only [List.length_take, extendLoop_length]
      omega
    · simp
      omega
  · simp
    omega

/-- Claim C1, Markov half: every password the Markov generator produces (for
any model, any valid random stream, any fuel) has length exactly
`config.length`. -/
theorem markovGeneratePassword_length {fuel : Nat} {m : MarkovModel}
    {cfg : PasswordGeneratorConfig} {r : Rng} {pw : List Char}
    (h : (markovGeneratePassword fuel m cfg r).1 = some pw) :
    pw.length = cfg.length := by
  unfold markovGeneratePassword at h
  split at h
  · simp at h
  · next pw0 r1 heq =>
      unfold applySecurityImprovements at h
      split at h
      · simp at h
      · next pw1 r2 heq2 =>
          have hbase : cfg.length ≤ pw0.length :=
            generateBasePassword_length (by rw [heq])
          have hlen1 : pw1.length = cfg.length := by
            have := sanitizeToAllowedCharacters_length (by rw [heq2])
            omega
          dsimp only at h
          split at h
          · simp at h
          · next pw3 r3 heq3 =>
              have hlen3 : pw3.length = cfg.length := by
                have hcat := ensureCharacterCategoriesM_length pw1 cfg r2
                have := ensureRequiredCharacters_length (by rw [heq3])
                omega
              split at h
              · simp only [Option.some.injEq] at h
                rw [← h, addEntropyMarkov_length _ hlen3]
              · simp only [Option.some.injEq] at h
                rw [← h]
                exact hlen3

/-! ## Character membership through the Markov pipeline -/

theorem getRandomCharacter_mem (cfg : PasswordGeneratorConfig) (r : Rng) :
    (getRandomCharacter cfg r).1 ∈ buildAllowedCharacterPool cfg :=
  getRandomFromPool_mem (buildAllowedCharacterPool_ne_nil cfg) r

theorem uppercase_draw_mem {cfg : PasswordGeneratorConfig}
    (h : cfg.includeUppercase = true) (r : Rng) :
    (getRandomFromChars uppercaseChars cfg r).1 ∈ buildAllowedCharacterPool cfg :=
  filtered_category_subset_pool
    (by intro x hx; simp [basePoolRaw, h, hx])
    (getRandomFromChars_mem_filtered (uppercase_filter_pos cfg) r)

theorem lowercase_draw_mem {cfg : PasswordGeneratorConfig}
    (h : cfg.includeLowercase = true) (r : Rng) :
    (getRandomFromChars lowercaseChars cfg r).1 ∈ buildAllowedCharacterPool cfg :=
  filtered_category_subset_pool
    (by intro x hx; simp [basePoolRaw, h, hx])
    (getRandomFromChars_mem_filtered (lowercase_filter_pos cfg) r)

theorem numbers_draw_mem {cfg : PasswordGeneratorConfig}
    (h : cfg.includeNumbers = true) (r : Rng) :
    (getRandomFromChars numberChars cfg r).1 ∈ buildAllowedCharacterPool cfg :=
  filtered_category_subset_pool
    (by intro x hx; simp [basePoolRaw, h, hx])
    (getRandomFromChars_mem_filtered (numbers_filter_pos cfg) r)

theorem symbols_draw_mem {cfg : PasswordGeneratorConfig}
    (h : cfg.includeSymbols = true) (r : Rng) :
    (getRandomFromChars symbolChars cfg r).1 ∈ buildAllowedCharacterPool cfg :=
  filtered_category_subset_pool
    (by intro x hx; simp [basePoolRaw, h, hx])
    (getRandomFromChars_mem_filtered (symbols_filter_pos cfg) r)

theorem sanitizeChars_mem {pool : List Char} (hpool : pool ≠ [])
    (l : List Char) (r : Rng) :
    ∀ c ∈ (sanitizeChars pool l r).1, c ∈ pool := by
  induction l generalizing r with
  | nil => intro c hc; simp [sanitizeChars] at hc
  | cons a t ih =>
      intro c hc
      unfold sanitizeChars at hc
      dsimp only at hc
      rcases List.mem_cons.mp hc with hc1 | hc2
      · rw [hc1]
        split
        · next hmem => exact hmem
        · exact getRandomFromPool_mem hpool r
      · exact ih _ _ hc2

theorem sanitizeToAllowedCharacters_mem {pw : List Char}
    {cfg : PasswordGeneratorConfig} {r : Rng} {out : List Char}
    (h : (sanitizeToAllowedCharacters pw cfg r).1 = some out) :
    ∀ c ∈ out, c ∈ buildAllowedCharacterPool cfg := by
  unfold sanitizeToAllowedCharacters at h
  dsimp only at h
  split at h
  · simp at h
  · simp only [Option.some.injEq] at h
    intro c hc
    rw [← h] at hc
    exact sanitizeChars_mem (buildAllowedCharacterPool_ne_nil cfg) pw r c
      (List.mem_of_mem_take hc)

theorem ensureCategory_mem {required : Bool} {pred : Char → Bool}
    {poolChars : List Char} {cfg : PasswordGeneratorConfig}
    {chars : List Char} {r : Rng}
    (hrep : required = true →
      ∀ r' : Rng, (getRandomFromChars poolChars cfg r').1 ∈
        buildAllowedCharacterPool cfg)
    (hmem : ∀ c ∈ chars, c ∈ buildAllowedCharacterPool cfg) :
    ∀ c ∈ (ensureCategory required pred poolChars cfg chars r).1,
      c ∈ buildAllowedCharacterPool cfg := by
  intro c hc
  unfold ensureCategory at hc
  split at hc
  · exact hmem c hc
  · split at hc
    · exact hmem c hc
    · split at hc
      · exact hmem c hc
      · next hreq _ _ =>
          rcases List.mem_or_eq_of_mem_set hc with hold | hnew
          · exact hmem c hold
          · rw [hnew]
            exact hrep (by revert hreq; cases required <;> simp) _

theorem ensureCharacterCategoriesM_mem {pw : List Char}
    {cfg : PasswordGeneratorConfig} {r : Rng}
    (hmem : ∀ c ∈ pw, c ∈ buildAllowedCharacterPool cfg) :
    ∀ c ∈ (ensureCharacterCategoriesM pw cfg r).1,
      c ∈ buildAllowedCharacterPool cfg := by
  unfold ensureCharacterCategoriesM
  exact ensureCategory_mem (fun hf r' => symbols_draw_mem hf r')
    (ensureCategory_mem (fun hf r' => numbers_draw_mem hf r')
      (ensureCategory_mem (fun hf r' => lowercase_draw_mem hf r')
        (ensureCategory_mem (fun hf r' => uppercase_draw_mem hf r') hmem)))

theorem ensureTypeLoop_mem {cfg : PasswordGeneratorConfig}
    {target : CharCategory} {pool : List Char} {mins : CharCategory → Nat}
    (hrep : ∀ r' : Rng, (getRandomFromChars pool cfg r').1 ∈
      buildAllowedCharacterPool cfg) :
    ∀ {fuel : Nat} {chars : List Char} {counts : CharCategory → Nat} {r : Rng}
      {out : List Char × (CharCategory → Nat)},
      (ensureTypeLoop cfg target pool mins fuel chars counts r).1 = some out →
      (∀ c ∈ chars, c ∈ buildAllowedCharacterPool cfg) →
      ∀ c ∈ out.1, c ∈ buildAllowedCharacterPool cfg := by
  intro fuel
  induction fuel with
  | zero => intro chars counts r out h _; simp [ensureTypeLoop] at h
  | succ n ih =>
      intro chars counts r out h hmem
      rw [ensureTypeLoop] at h
      split at h
      · refine ih h ?_
        intro c hc
        unfold replaceCharOp at hc
        dsimp only at hc
        rcases List.mem_or_eq_of_mem_set hc with hold | hnew
        · exact hmem c hold
        · rw [hnew]
          exact hrep _
      · simp only [Option.some.injEq] at h
        rw [← h]
        exact hmem

theorem ensureRequiredCharacters_mem {fuel : Nat} {pw : List Char}
    {cfg : PasswordGeneratorConfig} {r : Rng} {out : List Char}
    (h : (ensureRequiredCharacters fuel pw cfg r).1 = some out)
    (hmem : ∀ c ∈ pw, c ∈ buildAllowedCharacterPool cfg) :
    ∀ c ∈ out, c ∈ buildAllowedCharacterPool cfg := by
  unfold ensureRequiredCharacters at h
  dsimp only at h
  split at h
  · simp at h
  · next chars1 counts1 r1 heq1 =>
      have hmem1 : ∀ c ∈ chars1, c ∈ buildAllowedCharacterPool cfg := by
        by_cases hs : cfg.includeSymbols
        · have := congrArg Prod.fst heq1
          simp [hs] at this
          exact ensureTypeLoop_mem (fun r' => symbols_draw_mem hs r')
            (by rw [this]) hmem
        · have := congrArg Prod.fst heq1
          simp [hs] at this
          rw [← this.1]
          exact hmem
      split at h
      · simp at h
      · next chars2 counts2 r2 heq2 =>
          simp only [Option.some.injEq] at h
          subst h
          by_cases hn : cfg.includeNumbers
          · have := congrArg Prod.fst heq2
            simp [hn] at this
            exact ensureTypeLoop_mem (fun r' => numbers_draw_mem hn r')
              (by rw [this]) hmem1
          · have := congrArg Prod.fst heq2
            simp [hn] at this
            rw [← this.1]
            exact hmem1

theorem extendLoopAux_mem {maxLen : Nat} {cfg : PasswordGeneratorConfig} :
    ∀ {k : Nat} {pw : List Char} {r : Rng},
      (∀ c ∈ pw, c ∈ buildAllowedCharacterPool cfg) →
      ∀ c ∈ (extendLoopAux maxLen cfg k pw r).1, c ∈ buildAllowedCharacterPool cfg := by
  intro k
  induction k with
  | zero => intro pw r hmem; simpa [extendLoopAux] using hmem
  | succ n ih =>
      intro pw r hmem
      rw [extendLoopAux]
      split
      · refine ih ?_
        intro c hc
        rcases List.mem_append.mp hc with hold | hnew
        · exact hmem c hold
        · rw [List.mem_singleton.mp hnew]
          exact getRandomCharacter_mem cfg r
      · exact hmem

theorem extendLoop_mem {maxLen : Nat} {cfg : PasswordGeneratorConfig}
    {pw : List Char} {r : Rng}
    (hmem : ∀ c ∈ pw, c ∈ buildAllowedCharacterPool cfg) :
    ∀ c ∈ (extendLoop maxLen cfg pw r).1, c ∈ buildAllowedCharacterPool cfg :=
  extendLoopAux_mem hmem

theorem addEntropyMarkov_mem {pw : List Char} {cfg : PasswordGeneratorConfig}
    {r : Rng} (hmem : ∀ c ∈ pw, c ∈ buildAllowedCharacterPool cfg) :
    ∀ c ∈ (addEntropyMarkov pw cfg r).1, c ∈ buildAllowedCharacterPool cfg := by
  unfold addEntropyMarkov
  dsimp only
  intro c hc
  have hc' := List.mem_of_mem_take hc
  clear hc
  split at hc'
  · split at hc'
    · exact extendLoop_mem hmem c hc'
    · exact hmem c hc'
  · exact hmem c hc'

/-- Claim C2, Markov half: every character of every password the Markov
generator produces lies in the allowed pool built from the configuration. -/
theorem markovGeneratePassword_mem {fuel : Nat} {m : MarkovModel}
    {cfg : PasswordGeneratorConfig} {r : Rng} {pw : List Char}
    (h : (markovGeneratePassword fuel m cfg r).1 = some pw) :
    ∀ c ∈ pw, c ∈ buildAllowedCharacterPool cfg := by
  unfold markovGeneratePassword at h
  split at h
  · simp at h
  · next pw0 r1 heq =>
      unfold applySecurityImprovements at h
      split at h
      · simp at h
      · next pw1 r2 heq2 =>
          have hmem1 := sanitizeToAllowedCharacters_mem (by rw [heq2])
          dsimp only at h
          split at h
          · simp at h
          · next pw3 r3 heq3 =>
              have hmem3 := ensureRequiredCharacters_mem (by rw [heq3])
                (ensureCharacterCategoriesM_mem hmem1)
              split at h
              · simp only [Option.some.injEq] at h
                rw [← h]
                exact addEntropyMarkov_mem hmem3
              · simp only [Option.some.injEq] at h
                rw [← h]
                exact hmem3

/-! ## Category counting: the `counts` object of `ensureRequiredCharacters`
tracks the true category counts of the character array. -/

theorem upper_lower_false {c : Char} (h1 : isUppercaseChar c = true)
    (h2 : isLowercaseChar c = true) : False := by
  simp [isUppercaseChar] at h1
  simp [isLowercaseChar] at h2
  exact absurd (le_trans h2.1 h1.2) (by decide)

theorem upper_number_false {c : Char} (h1 : isUppercaseChar c = true)
    (h2 : isNumberChar c = true) : False := by
  simp [isUppercaseChar] at h1
  simp [isNumberChar] at h2
  exact absurd (le_trans h1.1 h2.2) (by decide)

theorem lower_number_false {c : Char} (h1 : isLowercaseChar c = true)
    (h2 : isNumberChar c = true) : False := by
  simp [isLowercaseChar] at h1
  simp [isNumberChar] at h2
  exact absurd (le_trans h1.1 h2.2) (by decide)

/-- Membership predicate of a category in terms of `getCharacterType`. -/
def typeP (t : CharCategory) (c : Char) : Bool :=
  getCharacterType c = some t

theorem typeP_uppercase (c : Char) : typeP .uppercase c = isUppercaseChar c := by
  unfold typeP getCharacterType
  cases hu : isUppercaseChar c <;>
    cases hl : isLowercaseChar c <;>
    cases hn : isNumberChar c <;>
    simp [isSymbolChar, hu, hl, hn]

theorem typeP_lowercase (c : Char) : typeP .lowercase c = isLowercaseChar c := by
  unfold typeP getCharacterType
  cases hu : isUppercaseChar c <;>
    cases hl : isLowercaseChar c <;>
    cases hn : isNumberChar c <;>
    simp [isSymbolChar, hu, hl, hn]
  · exact upper_lower_false hu hl
  · exact upper_lower_false hu hl

theorem typeP_numbers (c : Char) : typeP .numbers c = isNumberChar c := by
  unfold typeP getCharacterType
  cases hu : isUppercaseChar c <;>
    cases hl : isLowercaseChar c <;>
    cases hn : isNumberChar c <;>
    simp [isSymbolChar, hu, hl, hn]
  all_goals
    first
      | exact upper_lower_false hu hl
      | exact upper_number_false hu hn
      | exact lower_number_false hl hn

theorem typeP_symbols (c : Char) : typeP .symbols c = isSymbolChar c := by
  unfold typeP getCharacterType
  cases hu : isUppercaseChar c <;>
    cases hl : isLowercaseChar c <;>
    cases hn : isNumberChar c <;>
    simp [isSymbolChar, hu, hl, hn]

theorem countsOf_eq_countP (chars : List Char) (t : CharCategory) :
    countsOf chars t = chars.countP (typeP t) := by
  have hu : typeP .uppercase = isUppercaseChar := funext typeP_uppercase
  have hl : typeP .lowercase = isLowercaseChar := funext typeP_lowercase
  have hn : typeP .numbers = isNumberChar := funext typeP_numbers
  have hs : typeP .symbols = isSymbolChar := funext typeP_symbols
  cases t <;>
    simp only [countsOf, hu, hl, hn, hs, List.countP_eq_length_filter]

/-- Every character belongs to exactly one category: the four counts
partition the length. -/
theorem countsOf_partition (chars : List Char) :
    countsOf chars .uppercase + countsOf chars .lowercase +
      countsOf chars .numbers + countsOf chars .symbols = chars.length := by
  simp only [countsOf_eq_countP]
  induction chars with
  | nil => simp
  | cons c l ih =>
      simp only [List.countP_cons, List.length_cons]
      have hone :
          (if typeP .uppercase c then 1 else 0) +
            ((if typeP .lowercase c then 1 else 0) +
              ((if typeP .numbers c then 1 else 0) +
                (if typeP .symbols c then 1 else 0))) = 1 := by
        rw [typeP_uppercase, typeP_lowercase, typeP_numbers, typeP_symbols]
        unfold isSymbolChar
        cases hu : isUppercaseChar c <;>
          cases hl : isLowercaseChar c <;>
          cases hn : isNumberChar c <;>
          simp [hu, hl, hn]
        all_goals
          first
            | exact upper_lower_false hu hl
            | exact upper_number_false hu hn
            | exact lower_number_false hl hn
      omega

theorem countP_set (l : List Char) (i : Nat) (hi : i < l.length) (c' : Char)
    (p : Char → Bool) :
    (l.set i c').countP p + (if p (l.get ⟨i, hi⟩) then 1 else 0) =
      l.countP p + (if p c' then 1 else 0) := by
  induction l generalizing i with
  | nil => simp at hi
  | cons a t ih =>
      cases i with
      | zero => simp [List.countP_cons]; omega
      | succ j =>
          simp only [List.set_cons_succ, List.countP_cons, List.get_cons_succ]
          have := ih j (by simpa using hi)
          omega

/-- Accuracy of the incremental `counts` object. -/
def Accurate (chars : List Char) (counts : CharCategory → Nat) : Prop :=
  ∀ t, counts t = countsOf chars t

theorem accurate_countsOf (chars : List Char) : Accurate chars (countsOf chars) :=
  fun _ => rfl

/-! ## The replacement loop of `ensureRequiredCharacters` -/

/-- Sum of the enabled category minimums; when the configured length reaches
it, a replaceable index always exists and the loop never needs the
unconditional fallback. -/
def minSum (cfg : PasswordGeneratorConfig) : Nat :=
  minimums cfg .uppercase + minimums cfg .lowercase +
    minimums cfg .numbers + minimums cfg .symbols

theorem accurate_set {chars : List Char} {counts : CharCategory → Nat}
    {i : Nat} {c' : Char} {t0 target : CharCategory}
    (hacc : Accurate chars counts) (hi : i < chars.length)
    (ht0 : getCharacterType (chars.get ⟨i, hi⟩) = some t0)
    (htgt : getCharacterType c' = some target) :
    Accurate (chars.set i c')
      (fun u =>
        if u = target then (if u = t0 then counts u - 1 else counts u) + 1
        else (if u = t0 then counts u - 1 else counts u)) := by
  intro u
  have hpos : 1 ≤ chars.countP (typeP t0) := by
    refine List.countP_pos_iff.mpr ⟨chars.get ⟨i, hi⟩, List.get_mem chars _ _, ?_⟩
    unfold typeP
    rw [ht0]
    simp
  have hset := countP_set chars i hi c' (typeP u)
  have hold : typeP u (chars.get ⟨i, hi⟩) = decide (u = t0) := by
    unfold typeP
    rw [ht0]
    exact decide_eq_decide.mpr (by simp [eq_comm])
  have hnew : typeP u c' = decide (u = target) := by
    unfold typeP
    rw [htgt]
    exact decide_eq_decide.mpr (by simp [eq_comm])
  rw [hold, hnew] at hset
  have hacu := hacc u
  have hact0 := hacc t0
  rw [countsOf_eq_countP] at hacu hact0
  rw [countsOf_eq_countP]
  dsimp only
  by_cases h1 : u = target
  · by_cases h2 : u = t0
    · subst h1
      subst h2
      simp at hset ⊢
      omega
    · subst h1
      simp [h2] at hset ⊢
      omega
  · by_cases h2 : u = t0
    · subst h2
      simp [h1] at hset ⊢
      omega
    · simp [h1, h2] at hset ⊢
      omega

theorem canReplace_true_spec {chars : List Char} {counts mins : CharCategory → Nat}
    {target : CharCategory} {i : Nat}
    (h : canReplace chars counts mins target i = true) :
    ∃ (hi : i < chars.length) (t0 : CharCategory),
      getCharacterType (chars.get ⟨i, hi⟩) = some t0 ∧ t0 ≠ target ∧
        mins t0 + 1 ≤ counts t0 := by
  unfold canReplace at h
  split at h
  · simp at h
  · next c hget =>
      split at h
      · next htyp =>
          exact absurd (getCharacterType_isSome c) (by rw [htyp]; simp)
      · next t0 htyp =>
          split at h
          · simp at h
          · next hne =>
              obtain ⟨hi, hval⟩ := List.get?_eq_some.mp hget
              refine ⟨hi, t0, ?_, hne, by simpa using h⟩
              rw [hval]
              exact htyp

theorem canReplace_of {chars : List Char} {counts mins : CharCategory → Nat}
    {target t : CharCategory} {i : Nat} {c : Char}
    (hget : chars.get? i = some c) (htyp : getCharacterType c = some t)
    (hne : t ≠ target) (hcnt : mins t + 1 ≤ counts t) :
    canReplace chars counts mins target i = true := by
  simp only [canReplace, hget, htyp, if_neg hne]
  exact decide_eq_true hcnt

theorem findAttempts_some {chars : List Char} {counts mins : CharCategory → Nat}
    {target : CharCategory} :
    ∀ {n : Nat} {r : Rng} {i : Nat} {r' : Rng},
      findAttempts chars counts mins target n r = (some i, r') →
      canReplace chars counts mins target i = true := by
  intro n
  induction n with
  | zero => intro r i r' h; simp [findAttempts] at h
  | succ k ih =>
      intro r i r' h
      rw [findAttempts] at h
      split at h
      · next hcan =>
          simp only [Prod.mk.injEq, Option.some.injEq] at h
          rw [← h.1]
          exact hcan
      · exact ih h

theorem scanIndex_some {chars : List Char} {counts mins : CharCategory → Nat}
    {target : CharCategory} {i : Nat}
    (h : scanIndex chars counts mins target = some i) :
    canReplace chars counts mins target i = true := by
  have := List.find?_some h
  simpa using this

/-- Pigeonhole: with accurate counts, a length at least the sum of minimums,
and the target short of its minimum, the exhaustive scan finds a replaceable
index. -/
theorem scanIndex_isSome {chars : List Char} {counts : CharCategory → Nat}
    {cfg : PasswordGeneratorConfig} {target : CharCategory}
    (hacc : Accurate chars counts) (hlen : minSum cfg ≤ chars.length)
    (hguard : counts target < minimums cfg target) :
    (scanIndex chars counts (minimums cfg) target).isSome := by
  by_contra hnone
  rw [Option.not_isSome_iff_eq_none] at hnone
  unfold scanIndex at hnone
  rw [List.find?_eq_none] at hnone
  have hall : ∀ j, j < chars.length →
      canReplace chars counts (minimums cfg) target j = false := by
    intro j hj
    have := hnone j (by simpa [List.mem_range] using hj)
    simpa using this
  have hbound : ∀ t, t ≠ target → countsOf chars t ≤ minimums cfg t := by
    intro t ht
    by_contra hgt
    push_neg at hgt
    have hpos : 0 < chars.countP (typeP t) := by
      rw [← countsOf_eq_countP]
      omega
    obtain ⟨c, hcmem, hct⟩ := List.countP_pos_iff.mp hpos
    obtain ⟨j, hcj⟩ := List.mem_iff_get.mp hcmem
    have hj : (j : Nat) < chars.length := j.2
    have hgetj : chars.get? (j : Nat) = some c := by
      rw [List.get?_eq_get hj]
      exact congrArg some hcj
    have hcr : canReplace chars counts (minimums cfg) target j = true :=
      canReplace_of hgetj (by simpa [typeP] using hct) ht
        (by rw [hacc t]; omega)
    rw [hall j hj] at hcr
    exact absurd hcr (by simp)
  have hpart := countsOf_partition chars
  have htgt : countsOf chars target < minimums cfg target := by
    rw [← hacc target]
    exact hguard
  unfold minSum at hlen
  cases target with
  | uppercase =>
      have h1 := hbound .lowercase (by simp)
      have h2 := hbound .numbers (by simp)
      have h3 := hbound .symbols (by simp)
      omega
  | lowercase =>
      have h1 := hbound .uppercase (by simp)
      have h2 := hbound .numbers (by simp)
      have h3 := hbound .symbols (by simp)
      omega
  | numbers =>
      have h1 := hbound .uppercase (by simp)
      have h2 := hbound .lowercase (by simp)
      have h3 := hbound .symbols (by simp)
      omega
  | symbols =>
      have h1 := hbound .uppercase (by simp)
      have h2 := hbound .lowercase (by simp)
      have h3 := hbound .numbers (by simp)
      omega

theorem findReplacementIndex_canReplace {chars : List Char}
    {counts : CharCategory → Nat} {cfg : PasswordGeneratorConfig}
    {target : CharCategory} (r : Rng)
    (hacc : Accurate chars counts) (hlen : minSum cfg ≤ chars.length)
    (hguard : counts target < minimums cfg target) :
    canReplace chars counts (minimums cfg) target
      (findReplacementIndex chars counts (minimums cfg) target r).1 = true := by
  unfold findReplacementIndex
  split
  · next i r1 heq => exact findAttempts_some heq
  · next r1 heq =>
      rcases hscan : scanIndex chars counts (minimums cfg) target with _ | i
      · exact absurd (scanIndex_isSome hacc hlen hguard) (by simp [hscan])
      · dsimp only
        exact scanIndex_some hscan

theorem symbols_draw_type (cfg : PasswordGeneratorConfig) (r : Rng) :
    getCharacterType (getRandomFromChars symbolChars cfg r).1 = some .symbols := by
  have hmem := filterCharsForConfig_subset cfg
    (getRandomFromChars_mem_filtered (symbols_filter_pos cfg) r)
  have hall : ∀ c ∈ symbolChars, getCharacterType c = some CharCategory.symbols := by
    decide
  exact hall _ hmem

theorem numbers_draw_type (cfg : PasswordGeneratorConfig) (r : Rng) :
    getCharacterType (getRandomFromChars numberChars cfg r).1 = some .numbers := by
  have hmem := filterCharsForConfig_subset cfg
    (getRandomFromChars_mem_filtered (numbers_filter_pos cfg) r)
  have hall : ∀ c ∈ numberChars, getCharacterType c = some CharCategory.numbers := by
    decide
  exact hall _ hmem

/-- One replacement step of the loop, packaged: with accurate counts, enough
length, and the guard holding, the chosen index is replaceable and the updated
state stays accurate, grows the target count by one, and keeps every already
satisfied minimum satisfied. -/
theorem replaceStep_spec {cfg : PasswordGeneratorConfig}
    {target : CharCategory} {chars : List Char}
    {counts : CharCategory → Nat} {i : Nat} {c' : Char}
    (hdraw : getCharacterType c' = some target)
    (hacc : Accurate chars counts) (hcr : canReplace chars counts (minimums cfg) target i = true) :
    Accurate (replaceCharOp chars counts i c' target).1
        (replaceCharOp chars counts i c' target).2 ∧
      (replaceCharOp chars counts i c' target).2 target = counts target + 1 ∧
      (∀ t, minimums cfg t ≤ counts t →
        minimums cfg t ≤ (replaceCharOp chars counts i c' target).2 t) ∧
      (replaceCharOp chars counts i c' target).1.length = chars.length := by
  obtain ⟨hi, t0, ht0, hne, hcnt⟩ := canReplace_true_spec hcr
  have hget : chars.get? i = some (chars.get ⟨i, hi⟩) := List.get?_eq_get hi
  have hfst : (replaceCharOp chars counts i c' target).1 = chars.set i c' := by
    simp [replaceCharOp]
  have hsnd : (replaceCharOp chars counts i c' target).2 =
      fun u =>
        if u = target then (if u = t0 then counts u - 1 else counts u) + 1
        else (if u = t0 then counts u - 1 else counts u) := by
    simp only [replaceCharOp, hget, ht0]
  refine ⟨?_, ?_, ?_, ?_⟩
  · rw [hfst, hsnd]
    exact accurate_set hacc hi ht0 hdraw
  · rw [hsnd]
    simp [Ne.symm hne]
  · intro t hmin
    rw [hsnd]
    dsimp only
    by_cases h1 : t = target
    · by_cases h2 : t = t0
      · exact absurd (h1.symm.trans h2).symm hne
      · rw [if_pos h1, if_neg h2]
        omega
    · by_cases h2 : t = t0
      · have hcnt' : minimums cfg t + 1 ≤ counts t := by
          rw [h2]
          exact hcnt
        rw [if_neg h1, if_pos h2]
        omega
      · rw [if_neg h1, if_neg h2]
        exact hmin
  · rw [hfst]
    simp

/-- Whenever the replacement loop finishes (any fuel) from an accurate state
of length at least the sum of minimums, it finishes with the target minimum
met, every previously met minimum still met, accurate counts, and unchanged
length. -/
theorem ensureTypeLoop_invariant {cfg : PasswordGeneratorConfig}
    {target : CharCategory} {pool : List Char}
    (hdraw : ∀ r' : Rng,
      getCharacterType (getRandomFromChars pool cfg r').1 = some target) :
    ∀ {fuel : Nat} {chars : List Char} {counts : CharCategory → Nat} {r : Rng}
      {out : List Char × (CharCategory → Nat)},
      (ensureTypeLoop cfg target pool (minimums cfg) fuel chars counts r).1 = some out →
      Accurate chars counts → minSum cfg ≤ chars.length →
      Accurate out.1 out.2 ∧ minimums cfg target ≤ out.2 target ∧
        (∀ t, minimums cfg t ≤ counts t → minimums cfg t ≤ out.2 t) ∧
        out.1.length = chars.length := by
  intro fuel
  induction fuel with
  | zero => intro chars counts r out h _ _; simp [ensureTypeLoop] at h
  | succ n ih =>
      intro chars counts r out h hacc hlen
      rw [ensureTypeLoop] at h
      split at h
      · next hguard =>
          dsimp only at h
          have hcr := findReplacementIndex_canReplace r hacc hlen hguard
          obtain ⟨haccS, htgtS, hpresS, hlenS⟩ :=
            replaceStep_spec (hdraw _) hacc hcr
          obtain ⟨A, B, C, D⟩ := ih h haccS (by rw [hlenS]; exact hlen)
          refine ⟨A, B, ?_, by rw [D, hlenS]⟩
          intro t hmin
          exact C t (hpresS t hmin)
      · next hguard =>
          simp only [Option.some.injEq] at h
          rw [← h]
          exact ⟨hacc, by dsimp only; omega, fun t hm => hm, rfl⟩

/-- With fuel exceeding the deficit, the replacement loop finishes. -/
theorem ensureTypeLoop_isSome {cfg : PasswordGeneratorConfig}
    {target : CharCategory} {pool : List Char}
    (hdraw : ∀ r' : Rng,
      getCharacterType (getRandomFromChars pool cfg r').1 = some target) :
    ∀ {fuel : Nat} {chars : List Char} {counts : CharCategory → Nat} {r : Rng},
      Accurate chars counts → minSum cfg ≤ chars.length →
      minimums cfg target - counts target < fuel →
      ((ensureTypeLoop cfg target pool (minimums cfg) fuel chars counts r).1).isSome := by
  intro fuel
  induction fuel with
  | zero => intro chars counts r _ _ hfuel; omega
  | succ n ih =>
      intro chars counts r hacc hlen hfuel
      rw [ensureTypeLoop]
      split
      · next hguard =>
          dsimp only
          have hcr := findReplacementIndex_canReplace r hacc hlen hguard
          obtain ⟨haccS, htgtS, hpresS, hlenS⟩ :=
            replaceStep_spec (hdraw _) hacc hcr
          exact ih haccS (by rw [hlenS]; exact hlen) (by omega)
      · simp

theorem minimums_le_two (cfg : PasswordGeneratorConfig) (t : CharCategory) :
    minimums cfg t ≤ 2 := by
  cases t <;> simp only [minimums] <;> split <;> omega

theorem loop_run {cfg : PasswordGeneratorConfig} (target : CharCategory)
    {pool : List Char}
    (hdraw : ∀ r' : Rng,
      getCharacterType (getRandomFromChars pool cfg r').1 = some target)
    {fuel : Nat} {chars : List Char} {counts : CharCategory → Nat} {r : Rng}
    (hacc : Accurate chars counts) (hlen : minSum cfg ≤ chars.length)
    (hfuel : 3 ≤ fuel) :
    ∃ chars' counts' r',
      ensureTypeLoop cfg target pool (minimums cfg) fuel chars counts r =
        (some (chars', counts'), r') ∧
      Accurate chars' counts' ∧ minimums cfg target ≤ counts' target ∧
      (∀ t, minimums cfg t ≤ counts t → minimums cfg t ≤ counts' t) ∧
      chars'.length = chars.length := by
  have hdef : minimums cfg target - counts target < fuel := by
    have h2 := minimums_le_two cfg target
    omega
  rcases heq : ensureTypeLoop cfg target pool (minimums cfg) fuel chars counts r
    with ⟨o, r'⟩
  have hsome : (o, r').1.isSome := by
    rw [← heq]
    exact ensureTypeLoop_isSome hdraw hacc hlen hdef
  rcases o with _ | out
  · simp at hsome
  · obtain ⟨A, B, C, D⟩ := ensureTypeLoop_invariant hdraw (by rw [heq]) hacc hlen
    obtain ⟨o1, o2⟩ := out
    exact ⟨o1, o2, r', rfl, A, B, C, D⟩

/-- `ensureRequiredCharacters` with fuel at least 3 finishes, preserves the
length, and establishes both enabled minimum counts, provided the password is
at least as long as the sum of minimums. -/
theorem ensureRequired_spec {fuel : Nat} (pw : List Char)
    {cfg : PasswordGeneratorConfig} (r : Rng)
    (hlen : minSum cfg ≤ pw.length) (hfuel : 3 ≤ fuel) :
    ∃ out r', ensureRequiredCharacters fuel pw cfg r = (some out, r') ∧
      out.length = pw.length ∧
      (cfg.includeSymbols = true → 2 ≤ countsOf out .symbols) ∧
      (cfg.includeNumbers = true → 2 ≤ countsOf out .numbers) := by
  unfold ensureRequiredCharacters
  dsimp only
  by_cases hs : cfg.includeSymbols = true
  · have hmins : minimums cfg CharCategory.symbols = 2 := by simp [minimums, hs]
    obtain ⟨c1, k1, r1, heq1, acc1, tgt1, pres1, len1⟩ :=
      loop_run .symbols (fun r' => symbols_draw_type cfg r') (accurate_countsOf pw)
        hlen hfuel
    rw [if_pos hs, heq1]
    dsimp only
    by_cases hn : cfg.includeNumbers = true
    · have hminn : minimums cfg CharCategory.numbers = 2 := by simp [minimums, hn]
      obtain ⟨c2, k2, r2, heq2, acc2, tgt2, pres2, len2⟩ :=
        loop_run .numbers (fun r' => numbers_draw_type cfg r') acc1
          (by rw [len1]; exact hlen) hfuel
      rw [if_pos hn, heq2]
      dsimp only
      refine ⟨c2, r2, rfl, by rw [len2, len1], ?_, ?_⟩
      · intro _
        rw [← acc2 CharCategory.symbols, ← hmins]
        exact pres2 _ tgt1
      · intro _
        rw [← acc2 CharCategory.numbers, ← hminn]
        exact tgt2
    · rw [if_neg hn]
      dsimp only
      refine ⟨c1, r1, rfl, len1, ?_, fun h => absurd h hn⟩
      intro _
      rw [← acc1 CharCategory.symbols, ← hmins]
      exact tgt1
  · rw [if_neg hs]
    dsimp only
    by_cases hn : cfg.includeNumbers = true
    · have hminn : minimums cfg CharCategory.numbers = 2 := by simp [minimums, hn]
      obtain ⟨c2, k2, r2, heq2, acc2, tgt2, pres2, len2⟩ :=
        loop_run .numbers (fun r' => numbers_draw_type cfg r') (accurate_countsOf pw)
          hlen hfuel
      rw [if_pos hn, heq2]
      dsimp only
      refine ⟨c2, r2, rfl, len2, fun h => absurd h hs, ?_⟩
      intro _
      rw [← acc2 CharCategory.numbers, ← hminn]
      exact tgt2
    · rw [if_neg hn]
      exact ⟨pw, r, rfl, rfl, fun h => absurd h hs, fun h => absurd h hn⟩

/-- Invariant version for arbitrary fuel: whenever `ensureRequiredCharacters`
finishes on a long-enough password, both enabled minimums hold. -/
theorem ensureRequired_counts {fuel : Nat} {pw : List Char}
    {cfg : PasswordGeneratorConfig} {r : Rng} {out : List Char}
    (h : (ensureRequiredCharacters fuel pw cfg r).1 = some out)
    (hlen : minSum cfg ≤ pw.length) :
    (cfg.includeSymbols = true → 2 ≤ countsOf out .symbols) ∧
    (cfg.includeNumbers = true → 2 ≤ countsOf out .numbers) := by
  unfold ensureRequiredCharacters at h
  dsimp only at h
  split at h
  · simp at h
  · next chars1 counts1 r1 heq1 =>
      have stage1 : Accurate chars1 counts1 ∧ chars1.length = pw.length ∧
          (cfg.includeSymbols = true → 2 ≤ counts1 .symbols) := by
        by_cases hs : cfg.includeSymbols = true
        · rw [if_pos hs] at heq1
          have hmins : minimums cfg CharCategory.symbols = 2 := by
            simp [minimums, hs]
          obtain ⟨A, B, C, D⟩ := ensureTypeLoop_invariant
            (fun r' => symbols_draw_type cfg r') (by rw [heq1])
            (accurate_countsOf pw) hlen
          exact ⟨A, D, fun _ => hmins ▸ B⟩
        · rw [if_neg hs] at heq1
          obtain ⟨h1, h2⟩ := Prod.mk.injEq .. |>.mp heq1
          obtain ⟨h3, h4⟩ := Prod.mk.injEq .. |>.mp (Option.some.injEq .. |>.mp h1 : _)
          exact ⟨h3 ▸ h4 ▸ accurate_countsOf pw, by rw [← h3], fun h => absurd h hs⟩
      obtain ⟨acc1, len1, sym1⟩ := stage1
      split at h
      · simp at h
      · next chars2 counts2 r2 heq2 =>
          simp only [Option.some.injEq] at h
          subst h
          by_cases hn : cfg.includeNumbers = true
          · rw [if_pos hn] at heq2
            have hminn : minimums cfg CharCategory.numbers = 2 := by
              simp [minimums, hn]
            obtain ⟨A, B, C, D⟩ := ensureTypeLoop_invariant
              (fun r' => numbers_draw_type cfg r') (by rw [heq2]) acc1
              (by rw [len1]; exact hlen)
            constructor
            · intro hsf
              rw [← A CharCategory.symbols]
              have hmins : minimums cfg CharCategory.symbols = 2 := by
                simp [minimums, hsf]
              rw [← hmins]
              refine C _ ?_
              rw [hmins]
              exact sym1 hsf
            · intro _
              rw [← A CharCategory.numbers, ← hminn]
              exact B
          · rw [if_neg hn] at heq2
            obtain ⟨h1, h2⟩ := Prod.mk.injEq .. |>.mp heq2
            obtain ⟨h3, h4⟩ := Prod.mk.injEq .. |>.mp (Option.some.injEq .. |>.mp h1 : _)
            refine ⟨?_, fun h => absurd h hn⟩
            intro hsf
            rw [← h3, ← acc1 CharCategory.symbols]
            exact sym1 hsf

theorem addEntropyMarkov_id {pw : List Char} {cfg : PasswordGeneratorConfig}
    (r : Rng) (h : pw.length = cfg.length) :
    (addEntropyMarkov pw cfg r).1 = pw := by
  unfold addEntropyMarkov
  dsimp only
  have hno : ¬(pw.length < neededLen (getCharacterSetSize cfg) ∧
      pw.length < cfg.length) := by omega
  split
  all_goals simp [hno, ← h]

theorem generateBasePassword_isSome {m : MarkovModel}
    (cfg : PasswordGeneratorConfig) (r : Rng) (h : m.model ≠ []) :
    ∃ pw r1, generateBasePassword m cfg r = (some pw, r1) ∧
      cfg.length ≤ pw.length := by
  unfold generateBasePassword
  rw [if_neg (by simpa [List.isEmpty_iff] using h)]
  dsimp only
  refine ⟨_, _, rfl, ?_⟩
  rw [padLoop_length]
  omega

theorem sanitize_run (pw : List Char) (cfg : PasswordGeneratorConfig)
    (r : Rng) :
    ∃ out r1, sanitizeToAllowedCharacters pw cfg r = (some out, r1) ∧
      out.length = min cfg.length pw.length := by
  unfold sanitizeToAllowedCharacters
  dsimp only
  rw [if_neg (by simpa [List.isEmpty_iff] using buildAllowedCharacterPool_ne_nil cfg)]
  exact ⟨_, _, rfl, by simp [sanitizeChars_length]⟩

/-- Claim C5, Markov half (amended): when the configured length is at least
the sum of the enabled category minimums, every produced Markov password has
at least 2 symbols when symbols are enabled and at least 2 digits when
numbers are enabled. -/
theorem markovGeneratePassword_minCounts {fuel : Nat} {m : MarkovModel}
    {cfg : PasswordGeneratorConfig} {r : Rng} {pw : List Char}
    (h : (markovGeneratePassword fuel m cfg r).1 = some pw)
    (hlen : minSum cfg ≤ cfg.length) :
    (cfg.includeSymbols = true → 2 ≤ countsOf pw .symbols) ∧
    (cfg.includeNumbers = true → 2 ≤ countsOf pw .numbers) := by
  unfold markovGeneratePassword at h
  split at h
  · simp at h
  · next pw0 r1 heq =>
      unfold applySecurityImprovements at h
      split at h
      · simp at h
      · next pw1 r2 heq2 =>
          have hbase : cfg.length ≤ pw0.length :=
            generateBasePassword_length (by rw [heq])
          have hlen1 : pw1.length = cfg.length := by
            have := sanitizeToAllowedCharacters_length (by rw [heq2])
            omega
          dsimp only at h
          split at h
          · simp at h
          · next pw3 r3 heq3 =>
              have hlen2 : (ensureCharacterCategoriesM pw1 cfg r2).1.length =
                  cfg.length := by
                rw [ensureCharacterCategoriesM_length, hlen1]
              have hcounts := ensureRequired_counts (by rw [heq3])
                (by rw [hlen2]; exact hlen)
              have hlen3 : pw3.length = cfg.length := by
                have := ensureRequiredCharacters_length (by rw [heq3])
                omega
              split at h
              · simp only [Option.some.injEq] at h
                rw [← h, addEntropyMarkov_id r3 hlen3]
                exact hcounts
              · simp only [Option.some.injEq] at h
                rw [← h]
                exact hcounts

/-- Claim C7 (amended): when the configured length is at least the sum of the
enabled category minimums and the model is trained, generation terminates —
replacement-loop fuel 3 suffices, every other loop being structurally bounded
by the configured length. -/
theorem markovGeneratePassword_isSome {fuel : Nat} {m : MarkovModel}
    {cfg : PasswordGeneratorConfig} (r : Rng) (hm : m.model ≠ [])
    (hlen : minSum cfg ≤ cfg.length) (hfuel : 3 ≤ fuel) :
    ((markovGeneratePassword fuel m cfg r).1).isSome := by
  obtain ⟨pw0, r1, hbase, hblen⟩ := generateBasePassword_isSome cfg r hm
  unfold markovGeneratePassword
  rw [hbase]
  dsimp only
  unfold applySecurityImprovements
  obtain ⟨pw1, r2, hsan, hslen⟩ := sanitize_run pw0 cfg r1
  rw [hsan]
  dsimp only
  have hlen2 : (ensureCharacterCategoriesM pw1 cfg r2).1.length = cfg.length := by
    rw [ensureCharacterCategoriesM_length]
    omega
  obtain ⟨out, r3, hreq, _, _, _⟩ := ensureRequired_spec
    (ensureCharacterCategoriesM pw1 cfg r2).1
    (ensureCharacterCategoriesM pw1 cfg r2).2
    (by rw [hlen2]; exact hlen) hfuel
  rw [hreq]
  dsimp only
  split <;> simp

/-! ## The heuristic random generator (randomGenerator.ts) -/

/-- The charset built by the random `generateBasePassword`: enabled categories
concatenated, then similar and ambiguous characters removed; no fallback —
an empty charset throws. -/
def randomCharset (cfg : PasswordGeneratorConfig) : List Char :=
  let cs :=
    (if cfg.includeLowercase then lowercaseChars else []) ++
    (if cfg.includeUppercase then uppercaseChars else []) ++
    (if cfg.includeNumbers then numberChars else []) ++
    (if cfg.includeSymbols then symbolChars else [])
  let cs := if cfg.avoidSimilar
    then cs.filter (fun c => !(c ∈ similarChars : Bool)) else cs
  if cfg.avoidAmbiguous
    then cs.filter (fun c => !(c ∈ ambiguousChars : Bool)) else cs

/-- Draw `n` characters `charset[Math.floor(Math.random() * charset.length)]`
in order (used by the base generation loop, the repeated-run replacement and
the entropy extension, which share this indexing pattern). -/
def drawChars (charset : List Char) : Nat → Rng → List Char × Rng
  | 0, r => ([], r)
  | n + 1, r =>
      let c := charset.getD (randIndex r.next.1 charset.length) 'a'
      let s := drawChars charset n r.next.2
      (c :: s.1, s.2)

/-- Random `generateBasePassword` : `config.length` independent draws;
`none` models the throw on an empty charset. -/
def randomGenerateBase (cfg : PasswordGeneratorConfig) (r : Rng) :
    Option (List Char) × Rng :=
  if (randomCharset cfg).isEmpty then (none, r)
  else
    let s := drawChars (randomCharset cfg) cfg.length r
    (some s.1, s.2)

/-- One missing-category repair of the random `ensureCharacterCategories`:
`result.substring(0, pos) + category[j] + result.substring(pos + 1)`. -/
def spliceDraw (catChars : List Char) (result : List Char) (r : Rng) :
    List Char × Rng :=
  let pos := randIndex r.next.1 result.length
  let r1 := r.next.2
  let c := catChars.getD (randIndex r1.next.1 catChars.length) 'a'
  (result.take pos ++ [c] ++ result.drop (pos + 1), r1.next.2)

/-- Random `ensureCharacterCategories` : presence of every category is tested
against the characters of the ORIGINAL password (`const chars = result.split`
is computed once), while repairs splice into the evolving result; repairs
draw from the UNFILTERED category strings. -/
def ensureCharacterCategoriesR (pw : List Char) (cfg : PasswordGeneratorConfig)
    (r : Rng) : List Char × Rng :=
  let s1 := if cfg.includeUppercase &&
      !(pw.any (fun c => (c ∈ uppercaseChars : Bool)))
    then spliceDraw uppercaseChars pw r else (pw, r)
  let s2 := if cfg.includeLowercase &&
      !(pw.any (fun c => (c ∈ lowercaseChars : Bool)))
    then spliceDraw lowercaseChars s1.1 s1.2 else s1
  let s3 := if cfg.includeNumbers &&
      !(pw.any (fun c => (c ∈ numberChars : Bool)))
    then spliceDraw numberChars s2.1 s2.2 else s2
  if cfg.includeSymbols && !(pw.any (fun c => (c ∈ symbolChars : Bool)))
    then spliceDraw symbolChars s3.1 s3.2 else s3

/-- `getAlternativeChars` : the category string of the character, or the full
(unfiltered) universe when it belongs to none. -/
def getAlternativeChars (c : Char) : List Char :=
  if c ∈ lowercaseChars then lowercaseChars
  else if c ∈ uppercaseChars then uppercaseChars
  else if c ∈ numberChars then numberChars
  else if c ∈ symbolChars then symbolChars
  else lowercaseChars ++ uppercaseChars ++ numberChars ++ symbolChars

/-- Length of the run of `c` at the head of the list. -/
def countLeading (c : Char) : List Char → Nat
  | [] => 0
  | a :: t => if a = c then 1 + countLeading c t else 0

theorem countLeading_le (c : Char) (l : List Char) : countLeading c l ≤ l.length := by
  induction l with
  | nil => simp [countLeading]
  | cons a t ih =>
      unfold countLeading
      split
      · simp only [List.length_cons]
        omega
      · simp

/-- `breakCommonPatterns` : the regex `/(.)\1{2,}/g` matches every maximal
run of 3 or more equal characters; each such run keeps its first character
and replaces the rest with draws from the character's alternatives.
Structural recursion on the decreasing measure `l.length` (each step consumes
at least one character, so the initial measure always suffices). -/
def breakRunsAux : Nat → List Char → Rng → List Char × Rng
  | 0, l, r => (l, r)
  | _ + 1, [], r => ([], r)
  | fuel + 1, c :: rest, r =>
      let n := 1 + countLeading c rest
      if 3 ≤ n then
        let rep := drawChars (getAlternativeChars c) (n - 1) r
        let s := breakRunsAux fuel (rest.drop (n - 1)) rep.2
        (c :: (rep.1 ++ s.1), s.2)
      else
        let s := breakRunsAux fuel (rest.drop (n - 1)) r
        (List.replicate n c ++ s.1, s.2)

def breakCommonPatterns (l : List Char) (r : Rng) : List Char × Rng :=
  breakRunsAux l.length l r

/-- `parseInt` on a single character: its digit value, `NaN` otherwise. -/
def parseIntChar (c : Char) : Option Nat :=
  if isNumberChar c then some (c.toNat - 48) else none

/-- `isAlphaSequential` : lower-cased character codes in ascending steps of
one. -/
def isAlphaSequential (c1 c2 c3 : Char) : Bool :=
  c2.toLower.toNat = c1.toLower.toNat + 1 &&
    c3.toLower.toNat = c2.toLower.toNat + 1

/-- `isNumericSequential` : three digits in ascending steps of one (`NaN`
checks fail for non-digits). -/
def isNumericSequential (c1 c2 c3 : Char) : Bool :=
  match parseIntChar c1, parseIntChar c2, parseIntChar c3 with
  | some n1, some n2, some n3 => n2 = n1 + 1 && n3 = n2 + 1
  | _, _, _ => false

def isSequentialChars (c1 c2 c3 : Char) : Bool :=
  isAlphaSequential c1 c2 c3 || isNumericSequential c1 c2 c3

/-- `avoidSequentialChars` : walk the array, replacing the middle character
of every sequential triple with an alternative draw; later checks see earlier
replacements. Structural recursion on the decreasing measure
`chars.length - i` (`set` preserves the length, so the initial measure
always suffices). -/
def avoidSeqAux : Nat → List Char → Nat → Rng → List Char × Rng
  | 0, chars, _, r => (chars, r)
  | fuel + 1, chars, i, r =>
      if i + 2 < chars.length then
        let c1 := chars.getD i 'a'
        let c2 := chars.getD (i + 1) 'a'
        let c3 := chars.getD (i + 2) 'a'
        if isSequentialChars c1 c2 c3 then
          let alts := getAlternativeChars c2
          let c' := alts.getD (randIndex r.next.1 alts.length) 'a'
          avoidSeqAux fuel (chars.set (i + 1) c') (i + 1) r.next.2
        else avoidSeqAux fuel chars (i + 1) r
      else (chars, r)

def avoidSequentialChars (pw : List Char) (r : Rng) : List Char × Rng :=
  avoidSeqAux pw.length pw 0 r

/-- `addEntropy` (random version): append `max(0, neededLength - length)`
draws from the UNFILTERED enabled categories — note there is no cap at
`config.length`, unlike the Markov path. -/
def addEntropyRandom (pw : List Char) (cfg : PasswordGeneratorConfig)
    (r : Rng) : List Char × Rng :=
  if entropyLt60 pw then
    let additional := neededLen (getCharacterSetSize cfg) - pw.length
    let charset :=
      (if cfg.includeLowercase then lowercaseChars else []) ++
      (if cfg.includeUppercase then uppercaseChars else []) ++
      (if cfg.includeNumbers then numberChars else []) ++
      (if cfg.includeSymbols then symbolChars else [])
    let s := drawChars charset additional r
    (pw ++ s.1, s.2)
  else (pw, r)

/-- `applyHeuristics` : category repair, repeated-run breaking, sequential
perturbation, entropy extension below the 60-bit floor. -/
def applyHeuristics (pw : List Char) (cfg : PasswordGeneratorConfig)
    (r : Rng) : List Char × Rng :=
  let s1 := ensureCharacterCategoriesR pw cfg r
  let s2 := breakCommonPatterns s1.1 s1.2
  let s3 := avoidSequentialChars s2.1 s2.2
  if entropyLt60 s3.1 then addEntropyRandom s3.1 cfg s3.2 else s3

/-- `generatePassword` of `RandomPasswordGenerator`, restricted to the
password string. -/
def randomGeneratePassword (cfg : PasswordGeneratorConfig) (r : Rng) :
    Option (List Char) × Rng :=
  match randomGenerateBase cfg r with
  | (none, r1) => (none, r1)
  | (some pw, r1) =>
      let s := applyHeuristics pw cfg r1
      (some s.1, s.2)

/-! ## Training (markovGenerator.ts, `trainModel`/`normalizeProbabilities`) -/

/-- `map.set(k, (map.get(k) || 0) + 1)` on an insertion-ordered association
list. -/
def bumpCount {α : Type} [DecidableEq α] (k : α) :
    List (α × Nat) → List (α × Nat)
  | [] => [(k, 1)]
  | (a, n) :: t => if a = k then (a, n + 1) :: t else (a, n) :: bumpCount k t

/-- Record one transition observation in the model map. -/
def addTransition (st : List Char) (c : Char) :
    List (List Char × List (Char × Nat)) →
      List (List Char × List (Char × Nat))
  | [] => [(st, [(c, 1)])]
  | (s, m) :: t =>
      if s = st then (s, bumpCount c m) :: t else (s, m) :: addTransition st c t

/-- Process one training password: skip it when shorter than `order + 1`,
otherwise record its start state and all `(state, nextChar)` windows (the
`if (!nextChar) continue` guard of the source never fires, a one-character
string being truthy). -/
def recordPassword (order : Nat)
    (acc : List (List Char × List (Char × Nat)) × List (List Char × Nat))
    (pw : List Char) :
    List (List Char × List (Char × Nat)) × List (List Char × Nat) :=
  if pw.length < order + 1 then acc
  else
    ((List.range (pw.length - order)).foldl
      (fun m i => addTransition ((pw.drop i).take order) (pw.getD (i + order) 'a') m)
      acc.1,
     bumpCount (pw.take order) acc.2)

def trainCounts (corpus : List (List Char)) (order : Nat) :
    List (List Char × List (Char × Nat)) × List (List Char × Nat) :=
  corpus.foldl (recordPassword order) ([], [])

/-- Divide a row of counts by the row total (`normalizeProbabilities`). -/
def normalizeRow (row : List (Char × Nat)) : List (Char × ℚ) :=
  let total : ℚ := (row.map (fun p => (p.2 : ℚ))).sum
  row.map (fun p => (p.1, (p.2 : ℚ) / total))

def normalizeStarts (l : List (List Char × Nat)) : List (List Char × ℚ) :=
  let total : ℚ := (l.map (fun p => (p.2 : ℚ))).sum
  l.map (fun p => (p.1, (p.2 : ℚ) / total))

/-- `trainModel` : store the order and corpus, clear the previous maps, and
rebuild them from counts; the prior generator state `g` is discarded
entirely (`this.model.clear(); this.startStates.clear()`). -/
def trainModel (g : MarkovModel) (passwords : List (List Char))
    (order : Nat) : MarkovModel :=
  { model := (trainCounts passwords order).1.map
      (fun p => (p.1, normalizeRow p.2)),
    startStates := normalizeStarts (trainCounts passwords order).2,
    order := order,
    trainingData := passwords }

/-! ## Heuristic pipeline length facts -/

theorem drawChars_length (cs : List Char) (n : Nat) (r : Rng) :
    (drawChars cs n r).1.length = n := by
  induction n generalizing r with
  | zero => rfl
  | succ k ih => simp [drawChars, ih]

theorem drawChars_seq (cs : List Char) (n : Nat) (r : Rng) :
    (drawChars cs n r).2.seq = r.seq := by
  induction n generalizing r with
  | zero => rfl
  | succ k ih => simp [drawChars, ih, Rng.next]

theorem spliceDraw_length {cat result : List Char} {r : Rng}
    (hv : ValidSeq r.seq) (h0 : 0 < result.length) :
    (spliceDraw cat result r).1.length = result.length := by
  unfold spliceDraw
  dsimp only
  have hpos : randIndex (r.next.1) result.length < result.length :=
    randIndex_lt (hv r.pos).1 (hv r.pos).2 h0
  simp only [List.length_append, List.length_take, List.length_singleton,
    List.length_drop]
  omega

theorem spliceDraw_seq (cat result : List Char) (r : Rng) :
    (spliceDraw cat result r).2.seq = r.seq := rfl

theorem ifSplice_spec (b : Bool) (cat : List Char) (cur : List Char) (r : Rng)
    (hv : ValidSeq r.seq) (h0 : 0 < cur.length) :
    ((if b then spliceDraw cat cur r else (cur, r)).1.length = cur.length) ∧
    ((if b then spliceDraw cat cur r else (cur, r)).2.seq = r.seq) := by
  cases b with
  | false => exact ⟨rfl, rfl⟩
  | true =>
      simp only [if_pos]
      exact ⟨spliceDraw_length hv h0, rfl⟩

theorem ensureCharacterCategoriesR_spec {pw : List Char}
    {cfg : PasswordGeneratorConfig} {r : Rng}
    (hv : ValidSeq r.seq) (h0 : 0 < pw.length) :
    (ensureCharacterCategoriesR pw cfg r).1.length = pw.length ∧
    (ensureCharacterCategoriesR pw cfg r).2.seq = r.seq := by
  unfold ensureCharacterCategoriesR
  dsimp only
  obtain ⟨l1, q1⟩ := ifSplice_spec
    (cfg.includeUppercase && !(pw.any fun c => (c ∈ uppercaseChars : Bool)))
    uppercaseChars pw r hv h0
  obtain ⟨l2, q2⟩ := ifSplice_spec
    (cfg.includeLowercase && !(pw.any fun c => (c ∈ lowercaseChars : Bool)))
    lowercaseChars _ _ (by rw [q1]; exact hv) (by rw [l1]; exact h0)
  obtain ⟨l3, q3⟩ := ifSplice_spec
    (cfg.includeNumbers && !(pw.any fun c => (c ∈ numberChars : Bool)))
    numberChars _ _ (by rw [q2, q1]; exact hv) (by rw [l2, l1]; exact h0)
  obtain ⟨l4, q4⟩ := ifSplice_spec
    (cfg.includeSymbols && !(pw.any fun c => (c ∈ symbolChars : Bool)))
    symbolChars _ _ (by rw [q3, q2, q1]; exact hv) (by rw [l3, l2, l1]; exact h0)
  exact ⟨by rw [l4, l3, l2, l1], by rw [q4, q3, q2, q1]⟩

theorem breakRunsAux_length :
    ∀ (fuel : Nat) (l : List Char) (r : Rng),
      (breakRunsAux fuel l r).1.length = l.length := by
  intro fuel
  induction fuel with
  | zero => intro l r; rfl
  | succ n ih =>
      intro l r
      match l with
      | [] => rfl
      | c :: rest =>
          rw [breakRunsAux]
          have hle := countLeading_le c rest
          split
          · next hn =>
              simp only [List.length_cons, List.length_append,
                drawChars_length, ih, List.length_drop]
              omega
          · next hn =>
              simp only [List.length_append, List.length_replicate, ih,
                List.length_drop, List.length_cons]
              omega

theorem breakCommonPatterns_length (l : List Char) (r : Rng) :
    (breakCommonPatterns l r).1.length = l.length :=
  breakRunsAux_length l.length l r

theorem avoidSeqAux_length :
    ∀ (fuel : Nat) (chars : List Char) (i : Nat) (r : Rng),
      (avoidSeqAux fuel chars i r).1.length = chars.length := by
  intro fuel
  induction fuel with
  | zero => intro chars i r; rfl
  | succ n ih =>
      intro chars i r
      rw [avoidSeqAux]
      split
      · next h =>
          dsimp only
          split
          · rw [ih, List.length_set]
          · rw [ih]
      · rfl

theorem avoidSequentialChars_length (pw : List Char) (r : Rng) :
    (avoidSequentialChars pw r).1.length = pw.length :=
  avoidSeqAux_length pw.length pw 0 r

theorem addEntropyRandom_ge (pw : List Char) (cfg : PasswordGeneratorConfig)
    (r : Rng) : pw.length ≤ (addEntropyRandom pw cfg r).1.length := by
  unfold addEntropyRandom
  split
  · simp
  · simp

theorem applyHeuristics_ge {pw : List Char} {cfg : PasswordGeneratorConfig}
    {r : Rng} (hv : ValidSeq r.seq) (h0 : 0 < pw.length) :
    pw.length ≤ (applyHeuristics pw cfg r).1.length := by
  unfold applyHeuristics
  dsimp only
  obtain ⟨l1, _⟩ := @ensureCharacterCategoriesR_spec pw cfg r hv h0
  have l2 := breakCommonPatterns_length (ensureCharacterCategoriesR pw cfg r).1
    (ensureCharacterCategoriesR pw cfg r).2
  have l3 := avoidSequentialChars_length
    (breakCommonPatterns (ensureCharacterCategoriesR pw cfg r).1
      (ensureCharacterCategoriesR pw cfg r).2).1
    (breakCommonPatterns (ensureCharacterCategoriesR pw cfg r).1
      (ensureCharacterCategoriesR pw cfg r).2).2
  split
  · have h4 := addEntropyRandom_ge
      (avoidSequentialChars
        (breakCommonPatterns (ensureCharacterCategoriesR pw cfg r).1
          (ensureCharacterCategoriesR pw cfg r).2).1
        (breakCommonPatterns (ensureCharacterCategoriesR pw cfg r).1
          (ensureCharacterCategoriesR pw cfg r).2).2).1 cfg
      (avoidSequentialChars
        (breakCommonPatterns (ensureCharacterCategoriesR pw cfg r).1
          (ensureCharacterCategoriesR pw cfg r).2).1
        (breakCommonPatterns (ensureCharacterCategoriesR pw cfg r).1
          (ensureCharacterCategoriesR pw cfg r).2).2).2
    omega
  · omega

/-- Claim C1, heuristic half (amended): random-generator passwords are at
least as long as configured — the uncapped entropy extension can exceed it. -/
theorem randomGeneratePassword_ge {cfg : PasswordGeneratorConfig} {r : Rng}
    {pw : List Char} (hv : ValidSeq r.seq) (h0 : 0 < cfg.length)
    (h : (randomGeneratePassword cfg r).1 = some pw) :
    cfg.length ≤ pw.length := by
  unfold randomGeneratePassword at h
  split at h
  · simp at h
  · next pw0 r1 heq =>
      have hb : pw0.length = cfg.length ∧ r1.seq = r.seq := by
        unfold randomGenerateBase at heq
        split at heq
        · simp at heq
        · simp only [Prod.mk.injEq, Option.some.injEq] at heq
          refine ⟨?_, ?_⟩
          · rw [← heq.1, drawChars_length]
          · rw [← heq.2, drawChars_seq]
      dsimp only at h
      simp only [Option.some.injEq] at h
      rw [← h]
      have := @applyHeuristics_ge pw0 cfg r1
        (by rw [hb.2]; exact hv) (by omega)
      omega

/-! ## The time-to-crack estimators (claim C3)

The random generator computes `2^entropy / 10^12`; the Markov generator
computes `max(configSize, observedSize, 1) ^ length / 10^12`. Both derive the
unit fields by the same fixed conversions. -/

/-- `SecurityMetrics["timeToCrack"]`. -/
structure TimeToCrack where
  seconds : ℝ
  minutes : ℝ
  hours : ℝ
  days : ℝ
  years : ℝ

/-- `calculateTimeToCrack` of `RandomPasswordGenerator`: worst-case speed
`10^12` attempts per second over `2^entropy` combinations. -/
noncomputable def randomCalculateTimeToCrack (entropy : ℝ) : TimeToCrack :=
  let combinations := (2 : ℝ) ^ entropy
  let timeInSeconds := combinations / 10 ^ 12
  { seconds := timeInSeconds,
    minutes := timeInSeconds / 60,
    hours := timeInSeconds / 3600,
    days := timeInSeconds / 86400,
    years := timeInSeconds / (365.25 * 86400) }

/-- `calculateTimeToCrack` of `MarkovPasswordGenerator`: combinations are
`charsetSize ^ length` for the larger of the config pool size and the
observed distinct count (at least 1). -/
noncomputable def markovCalculateTimeToCrack (pw : List Char)
    (cfg : PasswordGeneratorConfig) : TimeToCrack :=
  let charsetSize :=
    max (max (getCharacterSetSize cfg) (getCharacterSetSizeFromPassword pw)) 1
  let combinations := (charsetSize : ℝ) ^ pw.length
  let timeInSeconds := combinations / 10 ^ 12
  { seconds := timeInSeconds,
    minutes := timeInSeconds / 60,
    hours := timeInSeconds / 3600,
    days := timeInSeconds / 86400,
    years := timeInSeconds / (365.25 * 86400) }

/-! ## The comparison engine (passwordComparison.ts)

Real-valued statistics are stated over `ℝ` with total division; the separate
`js*` functions below track float finiteness for the numeric edge-case claim
(division by a zero count or `Math.log2(0)` produce non-finite floats,
modelled as `none`). -/

/-- `GeneratedPassword` restricted to the fields the verified claims read
(the categorical strength label is presentation-only and not modelled). -/
structure GeneratedPassword where
  password : List Char
  entropy : ℝ
  timeToCrack : TimeToCrack

inductive Method where
  | random
  | markov
deriving DecidableEq, Repr

def commonWords : List (List Char) :=
  ["password".toList, "admin".toList, "user".toList, "test".toList,
    "login".toList, "welcome".toList]

def startsWithList : List Char → List Char → Bool
  | [], _ => true
  | _ :: _, [] => false
  | a :: as, b :: bs => a = b && startsWithList as bs

/-- `String.includes` : the needle occurs contiguously in the haystack. -/
def containsList (hay needle : List Char) : Bool :=
  (List.range (hay.length + 1)).any fun i => startsWithList needle (hay.drop i)

/-- `hasCommonWords` : the lower-cased password contains a dictionary word. -/
def hasCommonWords (pw : List Char) : Bool :=
  commonWords.any fun w => containsList (pw.map Char.toLower) w

def vowels : List Char := "aeiou".toList

def consonants : List Char := "bcdfghjklmnpqrstvwxyz".toList

/-- `hasPronounceablePatterns` : some consonant immediately followed by a
vowel (lower-cased). -/
def hasPronounceablePatterns (pw : List Char) : Bool :=
  (List.range (pw.length - 1)).any fun i =>
    (((pw.getD i 'a').toLower ∈ consonants : Bool) &&
      (((pw.getD (i + 1) 'a').toLower ∈ vowels : Bool)))

def hasReasonableLength (pw : List Char) : Bool :=
  8 ≤ pw.length && pw.length ≤ 20

/-- `hasExcessiveSymbols` : more than 30% non-alphanumeric characters
(`count > length * 0.3`, written over naturals as `10 * count > 3 * length`;
no claim depends on the float rounding of the literal `0.3`). -/
def hasExcessiveSymbols (pw : List Char) : Bool :=
  let symbolCount := (pw.filter (fun c =>
    !(isUppercaseChar c || isLowercaseChar c || isNumberChar c))).length
  3 * pw.length < 10 * symbolCount

def hasMixedCase (pw : List Char) : Bool :=
  pw.any isLowercaseChar && pw.any isUppercaseChar

/-- The five readability heuristics: +2 dictionary word, +1 pronounceable
pair, +1 reasonable length, +1 not symbol-heavy, +1 mixed case. -/
def readabilityPoints (pw : List Char) : Nat :=
  (if hasCommonWords pw then 2 else 0) +
  (if hasPronounceablePatterns pw then 1 else 0) +
  (if hasReasonableLength pw then 1 else 0) +
  (if !hasExcessiveSymbols pw then 1 else 0) +
  (if hasMixedCase pw then 1 else 0)

noncomputable def sortAsc (l : List ℝ) : List ℝ :=
  l.mergeSort fun a b => @decide (a ≤ b) (Classical.propDecidable _)

noncomputable def realMean (l : List ℝ) : ℝ := l.sum / l.length

noncomputable def realMedian (l : List ℝ) : ℝ :=
  if l.length % 2 = 0 then
    ((sortAsc l).getD (l.length / 2 - 1) 0 + (sortAsc l).getD (l.length / 2) 0) / 2
  else (sortAsc l).getD (l.length / 2) 0

noncomputable def realMin (l : List ℝ) : ℝ := l.min?.getD 0

noncomputable def realMax (l : List ℝ) : ℝ := l.max?.getD 0

/-- `calculateStandardDeviation` : square root of the mean squared
deviation. -/
noncomputable def calculateStandardDeviation (values : List ℝ) : ℝ :=
  Real.sqrt ((values.map (fun v => (v - realMean values) ^ 2)).sum /
    values.length)

structure EntropyStatistics where
  average : ℝ
  median : ℝ
  min : ℝ
  max : ℝ
  standardDeviation : ℝ
  above60Bits : ℕ
  above60BitsPercentage : ℝ

structure TimeStatistics where
  average : ℝ
  median : ℝ
  min : ℝ
  max : ℝ
  above10Years : ℕ
  above10YearsPercentage : ℝ

structure ReadabilityScore where
  averageScore : ℝ
  percentage : ℝ

structure SecurityCompliance where
  entropyAbove60Bits : ℕ
  entropyAbove60BitsPercentage : ℝ
  timeAbove10Years : ℕ
  timeAbove10YearsPercentage : ℝ
  bothRequirementsMet : ℕ
  bothRequirementsMetPercentage : ℝ

/-- `PasswordStatistics` (the strength-level distribution, read by no
verified claim, is not modelled). -/
structure PasswordStatistics where
  count : ℕ
  entropy : EntropyStatistics
  crackingTime : TimeStatistics
  readabilityScore : ReadabilityScore
  securityCompliance : SecurityCompliance

noncomputable def calculateEntropyStatistics (entropies : List ℝ) :
    EntropyStatistics :=
  { average := realMean entropies,
    median := realMedian entropies,
    min := realMin entropies,
    max := realMax entropies,
    standardDeviation := calculateStandardDeviation entropies,
    above60Bits := (entropies.filter fun e =>
      @decide (60 ≤ e) (Classical.propDecidable _)).length,
    above60BitsPercentage :=
      ((entropies.filter fun e =>
        @decide (60 ≤ e) (Classical.propDecidable _)).length : ℝ) /
        entropies.length * 100 }

noncomputable def calculateTimeStatistics (times : List ℝ) : TimeStatistics :=
  { average := realMean times,
    median := realMedian times,
    min := realMin times,
    max := realMax times,
    above10Years := (times.filter fun t =>
      @decide (10 ≤ t) (Classical.propDecidable _)).length,
    above10YearsPercentage :=
      ((times.filter fun t =>
        @decide (10 ≤ t) (Classical.propDecidable _)).length : ℝ) /
        times.length * 100 }

noncomputable def calculateReadabilityScore
    (passwords : List GeneratedPassword) : ReadabilityScore :=
  let totalScore : ℕ := (passwords.map fun p => readabilityPoints p.password).sum
  { averageScore := (totalScore : ℝ) / passwords.length,
    percentage := (totalScore : ℝ) / (passwords.length * 6) * 100 }

noncomputable def calculateSecurityCompliance
    (passwords : List GeneratedPassword) : SecurityCompliance :=
  let both := (passwords.filter fun p =>
    @decide (60 ≤ p.entropy ∧ 10 ≤ p.timeToCrack.years)
      (Classical.propDecidable _)).length
  { entropyAbove60Bits := (passwords.filter fun p =>
      @decide (60 ≤ p.entropy) (Classical.propDecidable _)).length,
    entropyAbove60BitsPercentage :=
      ((passwords.filter fun p =>
        @decide (60 ≤ p.entropy) (Classical.propDecidable _)).length : ℝ) /
        passwords.length * 100,
    timeAbove10Years := (passwords.filter fun p =>
      @decide (10 ≤ p.timeToCrack.years) (Classical.propDecidable _)).length,
    timeAbove10YearsPercentage :=
      ((passwords.filter fun p =>
        @decide (10 ≤ p.timeToCrack.years) (Classical.propDecidable _)).length : ℝ) /
        passwords.length * 100,
    bothRequirementsMet := both,
    bothRequirementsMetPercentage := (both : ℝ) / passwords.length * 100 }

noncomputable def calculateStatistics (passwords : List GeneratedPassword) :
    PasswordStatistics :=
  { count := passwords.length,
    entropy := calculateEntropyStatistics (passwords.map fun p => p.entropy),
    crackingTime :=
      calculateTimeStatistics (passwords.map fun p => p.timeToCrack.years),
    readabilityScore := calculateReadabilityScore passwords,
    securityCompliance := calculateSecurityCompliance passwords }

structure ComparisonMetric where
  random : ℝ
  markov : ℝ
  difference : ℝ
  better : Method

structure ApproachComparison where
  entropyComparison : ComparisonMetric
  timeComparison : ComparisonMetric
  readabilityComparison : ComparisonMetric
  securityComplianceComparison : ComparisonMetric

/-- `generateComparison` : per metric, the difference is `markov − random`
and the strictly greater side wins, ties going to `random`. -/
noncomputable def generateComparison (randomStats markovStats : PasswordStatistics) :
    ApproachComparison :=
  { entropyComparison :=
      { random := randomStats.entropy.average,
        markov := markovStats.entropy.average,
        difference := markovStats.entropy.average - randomStats.entropy.average,
        better := if markovStats.entropy.average > randomStats.entropy.average
          then .markov else .random },
    timeComparison :=
      { random := randomStats.crackingTime.average,
        markov := markovStats.crackingTime.average,
        difference :=
          markovStats.crackingTime.average - randomStats.crackingTime.average,
        better := if markovStats.crackingTime.average >
            randomStats.crackingTime.average then .markov else .random },
    readabilityComparison :=
      { random := randomStats.readabilityScore.averageScore,
        markov := markovStats.readabilityScore.averageScore,
        difference := markovStats.readabilityScore.averageScore -
          randomStats.readabilityScore.averageScore,
        better := if markovStats.readabilityScore.averageScore >
            randomStats.readabilityScore.averageScore then .markov else .random },
    securityComplianceComparison :=
      { random := randomStats.securityCompliance.bothRequirementsMetPercentage,
        markov := markovStats.securityCompliance.bothRequirementsMetPercentage,
        difference :=
          markovStats.securityCompliance.bothRequirementsMetPercentage -
            randomStats.securityCompliance.bothRequirementsMetPercentage,
        better := if markovStats.securityCompliance.bothRequirementsMetPercentage >
            randomStats.securityCompliance.bothRequirementsMetPercentage
          then .markov else .random } }

/-- `calculateOverallScore` : four axes capped at 25 points each. -/
noncomputable def calculateOverallScore (stats : PasswordStatistics) : ℝ :=
  min (stats.entropy.average / 60) 1 * 25 +
  min (stats.crackingTime.average / 10) 1 * 25 +
  stats.readabilityScore.percentage / 100 * 25 +
  stats.securityCompliance.bothRequirementsMetPercentage / 100 * 25

structure Recommendations where
  overallWinner : Method
  randomScore : ℝ
  markovScore : ℝ

/-- `generateRecommendations` restricted to its structured outputs (the
advisory sentence list is presentation-only): the overall winner has the
strictly higher weighted score, ties going to `random`. -/
noncomputable def generateRecommendations
    (randomStats markovStats : PasswordStatistics) : Recommendations :=
  { overallWinner := if calculateOverallScore markovStats >
        calculateOverallScore randomStats then .markov else .random,
    randomScore := calculateOverallScore randomStats,
    markovScore := calculateOverallScore markovStats }

structure ComparisonAnalysis where
  random : PasswordStatistics
  markov : PasswordStatistics
  comparison : ApproachComparison
  recommendations : Recommendations

/-- `compareApproaches`. -/
noncomputable def compareApproaches
    (randomPasswords markovPasswords : List GeneratedPassword) :
    ComparisonAnalysis :=
  { random := calculateStatistics randomPasswords,
    markov := calculateStatistics markovPasswords,
    comparison := generateComparison (calculateStatistics randomPasswords)
      (calculateStatistics markovPasswords),
    recommendations := generateRecommendations
      (calculateStatistics randomPasswords)
      (calculateStatistics markovPasswords) }

/-! ## Float-finiteness tracking for the batch statistics (claim C6) -/

/-- Float division: a zero divisor yields a non-finite value (`±Infinity`,
or `NaN` for `0/0`), modelled `none`. -/
noncomputable def jsDiv (a b : ℝ) : Option ℝ :=
  if b = 0 then none else some (a / b)

/-- The mean `values.reduce((s, v) => s + v, 0) / n` as a float. -/
noncomputable def jsMean (l : List ℝ) : Option ℝ := jsDiv l.sum l.length

/-- The median: out-of-range accesses on the sorted array give `undefined`,
and arithmetic on `undefined` gives `NaN`. -/
noncomputable def jsMedian (l : List ℝ) : Option ℝ :=
  if l.length % 2 = 0 then
    match (sortAsc l).get? (l.length / 2 - 1), (sortAsc l).get? (l.length / 2) with
    | some a, some b => some ((a + b) / 2)
    | _, _ => none
  else (sortAsc l).get? (l.length / 2)

/-- The standard deviation as a float: `NaN` propagates from the mean or
variance of an empty list. -/
noncomputable def jsStd (l : List ℝ) : Option ℝ :=
  match jsMean l with
  | none => none
  | some m =>
      match jsDiv ((l.map fun v => (v - m) ^ 2).sum) l.length with
      | none => none
      | some v => some (Real.sqrt v)

/-- `(count / n) * 100` as a float. -/
noncomputable def jsPctAbove (t : ℝ) (l : List ℝ) : Option ℝ :=
  match jsDiv ((l.filter fun e =>
      @decide (t ≤ e) (Classical.propDecidable _)).length) l.length with
  | none => none
  | some x => some (x * 100)

/-! ## Probability normalization sums to one (claim C4) -/

theorem foldl_inv {β γ : Type} (P : γ → Prop) (f : γ → β → γ)
    (hf : ∀ acc b, P acc → P (f acc b)) :
    ∀ (l : List β) (acc : γ), P acc → P (l.foldl f acc) := by
  intro l
  induction l with
  | nil => intro acc h; exact h
  | cons b t ih => intro acc h; exact ih _ (hf acc b h)

theorem bumpCount_ne_nil {α : Type} [DecidableEq α] (k : α)
    (l : List (α × Nat)) : bumpCount k l ≠ [] := by
  cases l with
  | nil => simp [bumpCount]
  | cons p t =>
      obtain ⟨a, n⟩ := p
      unfold bumpCount
      split <;> simp

theorem bumpCount_pos {α : Type} [DecidableEq α] (k : α)
    {l : List (α × Nat)} (h : ∀ p ∈ l, 1 ≤ p.2) :
    ∀ p ∈ bumpCount k l, 1 ≤ p.2 := by
  induction l with
  | nil =>
      intro p hp
      simp [bumpCount] at hp
      rw [hp]
  | cons q t ih =>
      obtain ⟨a, n⟩ := q
      intro p hp
      unfold bumpCount at hp
      split at hp
      · rcases List.mem_cons.mp hp with h1 | h2
        · rw [h1]
          dsimp only
          have := h (a, n) (by simp)
          omega
        · exact h p (List.mem_cons_of_mem _ h2)
      · rcases List.mem_cons.mp hp with h1 | h2
        · rw [h1]
          exact h (a, n) (by simp)
        · exact ih (fun q hq => h q (List.mem_cons_of_mem _ hq)) p h2

/-- Invariant of the transition count map: every row is non-empty with
positive counts. -/
def GoodRows (m : List (List Char × List (Char × Nat))) : Prop :=
  ∀ p ∈ m, p.2 ≠ [] ∧ ∀ q ∈ p.2, 1 ≤ q.2

theorem addTransition_good {st : List Char} {c : Char}
    {m : List (List Char × List (Char × Nat))} (h : GoodRows m) :
    GoodRows (addTransition st c m) := by
  induction m with
  | nil =>
      intro p hp
      simp [addTransition] at hp
      rw [hp]
      exact ⟨by simp, by simp⟩
  | cons q t ih =>
      obtain ⟨s, row⟩ := q
      intro p hp
      unfold addTransition at hp
      split at hp
      · rcases List.mem_cons.mp hp with h1 | h2
        · rw [h1]
          refine ⟨bumpCount_ne_nil c row, bumpCount_pos c ?_⟩
          exact (h (s, row) (by simp)).2
        · exact h p (List.mem_cons_of_mem _ h2)
      · rcases List.mem_cons.mp hp with h1 | h2
        · rw [h1]
          exact h (s, row) (by simp)
        · exact ih (fun q hq => h q (List.mem_cons_of_mem _ hq)) p h2

/-- Invariant of the accumulated counts during training. -/
def GoodCounts
    (acc : List (List Char × List (Char × Nat)) × List (List Char × Nat)) :
    Prop :=
  GoodRows acc.1 ∧ ∀ p ∈ acc.2, 1 ≤ p.2

theorem recordPassword_good {order : Nat}
    {acc : List (List Char × List (Char × Nat)) × List (List Char × Nat)}
    (h : GoodCounts acc) (pw : List Char) :
    GoodCounts (recordPassword order acc pw) := by
  unfold recordPassword
  split
  · exact h
  · constructor
    · refine foldl_inv GoodRows _ ?_ _ _ h.1
      intro a b ha
      exact addTransition_good ha
    · exact bumpCount_pos _ h.2

theorem trainCounts_good (corpus : List (List Char)) (order : Nat) :
    GoodCounts (trainCounts corpus order) := by
  unfold trainCounts
  refine foldl_inv GoodCounts _ ?_ _ _ ?_
  · intro acc pw ha
    exact recordPassword_good ha pw
  · exact ⟨by intro p hp; simp at hp, by intro p hp; simp at hp⟩

theorem foldl_record_preserve {order : Nat} (l : List (List Char))
    (acc : List (List Char × List (Char × Nat)) × List (List Char × Nat))
    (h : acc.2 ≠ []) : (l.foldl (recordPassword order) acc).2 ≠ [] := by
  refine foldl_inv (fun acc => acc.2 ≠ []) _ ?_ l acc h
  intro acc pw ha
  unfold recordPassword
  split
  · exact ha
  · exact bumpCount_ne_nil _ _

theorem foldl_record_ne_nil {order : Nat} :
    ∀ (l : List (List Char))
      (acc : List (List Char × List (Char × Nat)) × List (List Char × Nat)),
      (∃ pw ∈ l, order + 1 ≤ pw.length) →
      (l.foldl (recordPassword order) acc).2 ≠ [] := by
  intro l
  induction l with
  | nil => intro acc h; simp at h
  | cons a t ih =>
      intro acc h
      rw [List.foldl_cons]
      obtain ⟨pw, hmem, hlen⟩ := h
      rcases List.mem_cons.mp hmem with h1 | h2
      · subst h1
        refine foldl_record_preserve t _ ?_
        unfold recordPassword
        rw [if_neg (by omega)]
        exact bumpCount_ne_nil _ _
      · exact ih _ ⟨pw, h2, hlen⟩

theorem trainCounts_starts_ne_nil {corpus : List (List Char)} {order : Nat}
    (hvalid : ∃ pw ∈ corpus, order + 1 ≤ pw.length) :
    (trainCounts corpus order).2 ≠ [] := by
  unfold trainCounts
  exact foldl_record_ne_nil corpus _ hvalid

theorem sum_map_div (xs : List ℚ) (c : ℚ) :
    (xs.map (fun x => x / c)).sum = xs.sum / c := by
  induction xs with
  | nil => simp
  | cons a t ih => simp [ih, add_div]

theorem counts_total_pos {α : Type} {l : List (α × Nat)} (hne : l ≠ [])
    (hpos : ∀ p ∈ l, 1 ≤ p.2) :
    0 < ((l.map fun p => ((p.2 : ℚ))).sum) := by
  cases l with
  | nil => exact absurd rfl hne
  | cons a t =>
      simp only [List.map_cons, List.sum_cons]
      have h1 : (1 : ℚ) ≤ (a.2 : ℚ) := by
        exact_mod_cast hpos a (by simp)
      have h2 : 0 ≤ ((t.map fun p => ((p.2 : ℚ))).sum) := by
        refine List.sum_nonneg ?_
        intro x hx
        obtain ⟨p, _, hp⟩ := List.mem_map.mp hx
        rw [← hp]
        positivity
      linarith

theorem normalizeRow_sum {row : List (Char × Nat)} (hne : row ≠ [])
    (hpos : ∀ q ∈ row, 1 ≤ q.2) :
    ((normalizeRow row).map Prod.snd).sum = 1 := by
  unfold normalizeRow
  dsimp only
  rw [List.map_map]
  have heq : (Prod.snd ∘ fun p : Char × Nat =>
      (p.1, (p.2 : ℚ) / (row.map fun p => ((p.2 : ℚ))).sum)) =
      (fun p : Char × Nat => (p.2 : ℚ) / (row.map fun p => ((p.2 : ℚ))).sum) := rfl
  rw [heq]
  have : (row.map fun p : Char × Nat =>
      (p.2 : ℚ) / (row.map fun p => ((p.2 : ℚ))).sum) =
      ((row.map fun p : Char × Nat => (p.2 : ℚ)).map
        (fun x => x / (row.map fun p => ((p.2 : ℚ))).sum)) := by
    rw [List.map_map]
    rfl
  rw [this, sum_map_div, div_self]
  exact ne_of_gt (counts_total_pos hne hpos)

theorem normalizeStarts_sum {l : List (List Char × Nat)} (hne : l ≠ [])
    (hpos : ∀ q ∈ l, 1 ≤ q.2) :
    ((normalizeStarts l).map Prod.snd).sum = 1 := by
  unfold normalizeStarts
  dsimp only
  rw [List.map_map]
  have heq : (Prod.snd ∘ fun p : List Char × Nat =>
      (p.1, (p.2 : ℚ) / (l.map fun p => ((p.2 : ℚ))).sum)) =
      (fun p : List Char × Nat => (p.2 : ℚ) / (l.map fun p => ((p.2 : ℚ))).sum) := rfl
  rw [heq]
  have : (l.map fun p : List Char × Nat =>
      (p.2 : ℚ) / (l.map fun p => ((p.2 : ℚ))).sum) =
      ((l.map fun p : List Char × Nat => (p.2 : ℚ)).map
        (fun x => x / (l.map fun p => ((p.2 : ℚ))).sum)) := by
    rw [List.map_map]
    rfl
  rw [this, sum_map_div, div_self]
  exact ne_of_gt (counts_total_pos hne hpos)

/-! ## Concrete scenarios used by the claim verifications

`zeroSeq` is the all-zeros draw stream (every `Math.random()` call returns
`0`); `mW` is the model obtained by training a fresh generator on the
single-password corpus `["ab"]` with order 1. -/

def zeroSeq : Nat → ℚ := fun _ => 0

def rngZero : Rng := ⟨zeroSeq, 0⟩

theorem zeroSeq_valid : ValidSeq zeroSeq := by
  intro i
  constructor <;> norm_num [zeroSeq]

def emptyModel : MarkovModel := ⟨[], [], 1, []⟩

def corpusW : List (List Char) := [['a', 'b']]

def mW : MarkovModel := trainModel emptyModel corpusW 1

/-- Length-2, lowercase-only config. -/
def cfgW2 : PasswordGeneratorConfig := ⟨2, false, true, false, false, false, false⟩

/-- Length-4, lowercase-only config. -/
def c1cfg : PasswordGeneratorConfig := ⟨4, false, true, false, false, false, false⟩

/-- Length-3, numbers-only config with `avoidSimilar` set. -/
def c2cfg : PasswordGeneratorConfig := ⟨3, false, false, true, false, true, false⟩

/-- Length-8 config with lowercase and symbols. -/
def cfg5 : PasswordGeneratorConfig := ⟨8, false, true, false, true, false, false⟩

/-- Length-4, symbols-only config. -/
def cfg5w : PasswordGeneratorConfig := ⟨4, false, false, false, true, false, false⟩

/-- Length-1, symbols-only config: its symbol minimum (2) exceeds its
length. -/
def cfg7 : PasswordGeneratorConfig := ⟨1, false, false, false, true, false, false⟩

def aaaa : List Char := ['a', 'a', 'a', 'a']

/-- Length-4 config with uppercase and lowercase. -/
def cfgUL : PasswordGeneratorConfig := ⟨4, true, true, false, false, false, false⟩

/-! ## Claim C10: training is deterministic -/

/-- **C10** (confirmed). `trainModel` clears all prior state and draws no
randomness, so two runs on the same corpus and order — whatever the prior
state of either generator — produce identical transition maps and identical
start-state maps: the trained model is a function of `(corpus, order)`
alone. In the embedding `trainModel` never reads its generator argument,
so the three equalities hold definitionally. -/
theorem c10_train_deterministic (g1 g2 : MarkovModel)
    (corpus : List (List Char)) (order : Nat) :
    (trainModel g1 corpus order).model = (trainModel g2 corpus order).model ∧
    (trainModel g1 corpus order).startStates =
      (trainModel g2 corpus order).startStates ∧
    trainModel g1 corpus order = trainModel g2 corpus order :=
  ⟨rfl, rfl, rfl⟩

/-! ## Claim C9: comparing a batch against itself -/

/-- **C9** (confirmed). For a non-empty batch `b`, `compareApproaches b b`
reports a zero signed difference on all four metrics (entropy mean,
cracking-time mean, readability mean, both-requirements-met percentage),
names `random` as the better side of every metric, and names `random` as
the overall winner: every comparison is a strict `markov > random` test on
equal statistics, and ties go to `random`. -/
theorem c9_compare_self (b : List GeneratedPassword) (hb : b ≠ []) :
    (compareApproaches b b).comparison.entropyComparison.difference = 0 ∧
    (compareApproaches b b).comparison.timeComparison.difference = 0 ∧
    (compareApproaches b b).comparison.readabilityComparison.difference = 0 ∧
    (compareApproaches b b).comparison.securityComplianceComparison.difference = 0 ∧
    (compareApproaches b b).comparison.entropyComparison.better = Method.random ∧
    (compareApproaches b b).comparison.timeComparison.better = Method.random ∧
    (compareApproaches b b).comparison.readabilityComparison.better = Method.random ∧
    (compareApproaches b b).comparison.securityComplianceComparison.better =
      Method.random ∧
    (compareApproaches b b).recommendations.overallWinner = Method.random := by
  unfold compareApproaches generateComparison generateRecommendations
  refine ⟨?_, ?_, ?_, ?_, ?_, ?_, ?_, ?_, ?_⟩ <;> simp

/-- A concrete batch member for instantiating `c9_compare_self`. -/
def gp0 : GeneratedPassword := ⟨['a'], 0, ⟨0, 0, 0, 0, 0⟩⟩

theorem c9_witness :
    (compareApproaches [gp0] [gp0]).comparison.entropyComparison.difference = 0 ∧
    (compareApproaches [gp0] [gp0]).comparison.timeComparison.difference = 0 ∧
    (compareApproaches [gp0] [gp0]).comparison.readabilityComparison.difference = 0 ∧
    (compareApproaches [gp0] [gp0]).comparison.securityComplianceComparison.difference = 0 ∧
    (compareApproaches [gp0] [gp0]).comparison.entropyComparison.better = Method.random ∧
    (compareApproaches [gp0] [gp0]).comparison.timeComparison.better = Method.random ∧
    (compareApproaches [gp0] [gp0]).comparison.readabilityComparison.better = Method.random ∧
    (compareApproaches [gp0] [gp0]).comparison.securityComplianceComparison.better =
      Method.random ∧
    (compareApproaches [gp0] [gp0]).recommendations.overallWinner = Method.random :=
  c9_compare_self [gp0] (by simp)

/-! ## Claim C4: normalized probabilities sum to one -/

/-- **C4** (confirmed). After training on a corpus with at least one
password of length `≥ order + 1`, every state's outgoing transition
probabilities sum to 1 within `1e-9`, and the start-state probabilities sum
to 1 within `1e-9` (in exact rational arithmetic the sums are exactly 1, so
the float sums — exact up to rounding — are within any `1e-9`
tolerance). -/
theorem c4_probability_sums {corpus : List (List Char)} {order : Nat}
    (g : MarkovModel) (hvalid : ∃ pw ∈ corpus, order + 1 ≤ pw.length) :
    (∀ p ∈ (trainModel g corpus order).model,
        |((p.2.map Prod.snd).sum : ℚ) - 1| ≤ 1 / 1000000000) ∧
    |(((trainModel g corpus order).startStates.map Prod.snd).sum : ℚ) - 1| ≤
      1 / 1000000000 := by
  have hgood := trainCounts_good corpus order
  constructor
  · intro p hp
    unfold trainModel at hp
    dsimp only at hp
    obtain ⟨q, hq, rfl⟩ := List.mem_map.mp hp
    dsimp only
    have hrow := hgood.1 q hq
    rw [normalizeRow_sum hrow.1 hrow.2]
    norm_num
  · unfold trainModel
    dsimp only
    rw [normalizeStarts_sum (trainCounts_starts_ne_nil hvalid) hgood.2]
    norm_num

theorem c4_witness :
    (∃ pw ∈ corpusW, 1 + 1 ≤ pw.length) ∧
    |(((trainModel emptyModel corpusW 1).startStates.map Prod.snd).sum : ℚ) - 1| ≤
      1 / 1000000000 :=
  ⟨by decide, (c4_probability_sums emptyModel (by decide)).2⟩

/-! ## Claim C8: the entropy formula (spec-level refinement) -/

/-- Spec-level observed alphabet size: the number of distinct characters of
the password, stated as the cardinality of its character set (following the
spec's words, for comparison with the code's `dedup`-based count). -/
def specObservedSize (pw : List Char) : Nat := pw.toFinset.card

/-- Spec-level theoretical size, following the spec's words: the sum of the
category sizes (26 lowercase, 26 uppercase, 10 digits, 32 other) over the
categories actually represented in the password. -/
def specTheoreticalSize (pw : List Char) : Nat :=
  (if ∃ c ∈ pw, isLowercaseChar c then 26 else 0) +
  (if ∃ c ∈ pw, isUppercaseChar c then 26 else 0) +
  (if ∃ c ∈ pw, isNumberChar c then 10 else 0) +
  (if ∃ c ∈ pw, ¬(isLowercaseChar c || isUppercaseChar c || isNumberChar c)
    then 32 else 0)

theorem specObservedSize_eq (pw : List Char) :
    specObservedSize pw = getCharacterSetSizeFromPassword pw :=
  List.card_toFinset pw

theorem specTheoreticalSize_eq (pw : List Char) :
    specTheoreticalSize pw = theoreticalSize pw := by
  unfold specTheoreticalSize theoreticalSize
  simp only [List.any_eq_true, Bool.not_eq_true, Bool.not_eq_true']

/-- **C8** (confirmed). Below 26 distinct characters `calculateEntropy`
returns `length * log2(max(observedSize, theoreticalSize))` (defined except
for the empty string, where both sizes are 0), and otherwise
`length * log2(observedSize)`; in particular `Entropy("aaaa")` uses the
theoretical lowercase fallback and equals `4 * log2 26 ≈ 18.8` bits, which
is not 0. -/
theorem c8_entropy_spec :
    (∀ pw : List Char, specObservedSize pw < 26 →
        calculateEntropy pw =
          if max (specObservedSize pw) (specTheoreticalSize pw) = 0 then none
          else some ((pw.length : ℝ) *
            Real.logb 2
              ((max (specObservedSize pw) (specTheoreticalSize pw) : ℕ) : ℝ))) ∧
    (∀ pw : List Char, 26 ≤ specObservedSize pw →
        calculateEntropy pw =
          some ((pw.length : ℝ) * Real.logb 2 (specObservedSize pw))) ∧
    calculateEntropy aaaa = some ((4 : ℝ) * Real.logb 2 26) ∧
    (4 : ℝ) * Real.logb 2 26 ≠ 0 := by
  refine ⟨?_, ?_, ?_, ?_⟩
  · intro pw h
    have hobs := specObservedSize_eq pw
    have hth := specTheoreticalSize_eq pw
    have heff : effectiveEntropySize pw =
        max (specObservedSize pw) (specTheoreticalSize pw) := by
      unfold effectiveEntropySize
      rw [if_pos (by omega), hobs, hth]
    unfold calculateEntropy
    rw [heff]
  · intro pw h
    have hobs := specObservedSize_eq pw
    have heff : effectiveEntropySize pw = specObservedSize pw := by
      unfold effectiveEntropySize
      rw [if_neg (by omega), hobs]
    unfold calculateEntropy
    rw [heff, if_neg (by omega)]
  · have h1 : effectiveEntropySize aaaa = 26 := by decide
    unfold calculateEntropy
    rw [h1, if_neg (by norm_num),
      show ((aaaa.length : ℕ) : ℝ) = (4 : ℝ) by norm_num [aaaa]]
    norm_num
  · have h := Real.logb_pos (by norm_num : (1:ℝ) < 2) (by norm_num : (1:ℝ) < 26)
    exact ne_of_gt (mul_pos (by norm_num) h)

theorem c8_witness :
    calculateEntropy aaaa =
      if max (specObservedSize aaaa) (specTheoreticalSize aaaa) = 0 then none
      else some ((aaaa.length : ℝ) *
        Real.logb 2
          ((max (specObservedSize aaaa) (specTheoreticalSize aaaa) : ℕ) : ℝ)) :=
  c8_entropy_spec.1 aaaa (by decide)

/-! ## Claim C6: numeric edge cases -/

theorem effectiveEntropySize_ne_zero {pw : List Char} (h : pw ≠ []) :
    effectiveEntropySize pw ≠ 0 := by
  have hobs : 0 < getCharacterSetSizeFromPassword pw := by
    unfold getCharacterSetSizeFromPassword
    rw [List.length_pos]
    simpa [List.dedup_eq_nil] using h
  have hmax := le_max_left (getCharacterSetSizeFromPassword pw) (theoreticalSize pw)
  unfold effectiveEntropySize
  split <;> omega

/-- **C6** counterexample: the empty-string and empty-batch edge cases are
NOT guarded. `calculateEntropy ""` computes `0 * log2(max(0, 0))`, i.e.
`0 * (-Infinity) = NaN` (modelled `none`), and the mean of a zero-length
batch divides by the zero count (`0 / 0 = NaN`, modelled `none`). -/
theorem c6_counterexample :
    calculateEntropy [] = none ∧ jsMean [] = none := by
  constructor
  · have h : effectiveEntropySize ([] : List Char) = 0 := by decide
    unfold calculateEntropy
    rw [h, if_pos rfl]
  · simp [jsMean, jsDiv]

/-- **C6** (corrected). The defined part of the claim: `calculateEntropy`
is a finite float on every NON-empty password (the distinct count is then
positive, so no log of zero occurs), and the single-element batch statistics
are all finite: the mean of `[x]` is `x`, the median is `x`, the standard
deviation is `0`, and the above-threshold percentage is defined. The empty
string and the zero-length batch are refuted separately
(`c6_counterexample`). -/
theorem c6_handled_amended :
    (∀ pw : List Char, pw ≠ [] → (calculateEntropy pw).isSome) ∧
    (∀ x : ℝ, jsMean [x] = some x ∧ jsMedian [x] = some x ∧
      jsStd [x] = some 0 ∧ (jsPctAbove 60 [x]).isSome) := by
  constructor
  · intro pw h
    unfold calculateEntropy
    rw [if_neg (effectiveEntropySize_ne_zero h)]
    rfl
  · intro x
    have hmean : jsMean [x] = some x := by
      simp [jsMean, jsDiv]
    have hsort : sortAsc [x] = [x] := by
      have hperm : List.Perm (sortAsc [x]) [x] := List.mergeSort_perm [x] _
      exact List.perm_singleton.mp hperm
    refine ⟨hmean, ?_, ?_, ?_⟩
    · simp [jsMedian, hsort]
    · rw [jsStd, hmean]
      simp [jsDiv, Real.sqrt_eq_zero']
    · simp [jsPctAbove, jsDiv]

theorem c6_witness :
    (calculateEntropy ['a']).isSome ∧ jsMean [(0 : ℝ)] = some 0 :=
  ⟨c6_handled_amended.1 ['a'] (by decide), (c6_handled_amended.2 0).1⟩

/-! ## Claims C1, C2, C5: concrete generator runs

Batteries marks the rational field operations `@[irreducible]`; the concrete
generator runs below are evaluated definitionally, so restore their default
reducibility for the rest of this development. -/

attribute [local semireducible] Rat.mul Rat.add Rat.sub Rat.inv

/-- **C1** counterexample: the heuristic generator violates
`password.length == config.length`. On the length-4 lowercase config and the
all-zeros stream the base password is `"aaaa"`; its entropy
`4 * log2(26) ≈ 18.8` is below 60, so the uncapped `addEntropy` extends it
to `Math.ceil(60 / log2 26) = 13` characters. -/
theorem c1_counterexample :
    c1cfg.length = 4 ∧
    (randomGeneratePassword c1cfg rngZero).1.isSome ∧
    ((randomGeneratePassword c1cfg rngZero).1.getD []).length = 13 ∧
    ((randomGeneratePassword c1cfg rngZero).1.getD []).length ≠ c1cfg.length := by
  decide

/-- **C1** (corrected). The Markov generator does return passwords of
exactly the configured length (its `addEntropy` caps the extension at
`config.length` and truncates); the heuristic generator only guarantees
`config.length ≤ password.length` for positive configured lengths — its
uncapped `addEntropy` can exceed the configured length
(`c1_counterexample`). -/
theorem c1_length_amended :
    (∀ (fuel : Nat) (m : MarkovModel) (cfg : PasswordGeneratorConfig)
        (r : Rng) (pw : List Char),
        (markovGeneratePassword fuel m cfg r).1 = some pw →
        pw.length = cfg.length) ∧
    (∀ (cfg : PasswordGeneratorConfig) (r : Rng) (pw : List Char),
        ValidSeq r.seq → 0 < cfg.length →
        (randomGeneratePassword cfg r).1 = some pw →
        cfg.length ≤ pw.length) :=
  ⟨fun _ _ _ _ _ h => markovGeneratePassword_length h,
   fun _ _ _ hv h0 h => randomGeneratePassword_ge hv h0 h⟩

theorem c1_witness :
    ((markovGeneratePassword 0 mW cfgW2 rngZero).1.getD []).length =
      cfgW2.length ∧
    c1cfg.length ≤ ((randomGeneratePassword c1cfg rngZero).1.getD []).length :=
  ⟨c1_length_amended.1 0 mW cfgW2 rngZero _ (by decide),
   c1_length_amended.2 c1cfg rngZero _ zeroSeq_valid (by decide) (by decide)⟩

/-- **C2** counterexample: the heuristic generator leaks excluded similar
characters. On the length-3 numbers-only config with `avoidSimilar`, the
base draws avoid `0` and `1`, but `breakCommonPatterns` replaces the
repeated `"222"` with draws from the UNFILTERED digit string, and the
all-zeros stream produces `'0'` — a character of the similar set excluded
from the allowed pool. -/
theorem c2_counterexample :
    c2cfg.avoidSimilar = true ∧ '0' ∈ similarChars ∧
    '0' ∉ buildAllowedCharacterPool c2cfg ∧
    (randomGeneratePassword c2cfg rngZero).1.isSome ∧
    '0' ∈ (randomGeneratePassword c2cfg rngZero).1.getD [] := by
  decide

/-- **C2** (corrected). The Markov half of the claim holds: every character
of a password returned by the Markov generator lies in the allowed pool of
its config (the pipeline sanitizes into the pool and every later draw
filters for the config). The heuristic half is refuted by
`c2_counterexample`. -/
theorem c2_pool_amended :
    ∀ (fuel : Nat) (m : MarkovModel) (cfg : PasswordGeneratorConfig)
      (r : Rng) (pw : List Char),
      (markovGeneratePassword fuel m cfg r).1 = some pw →
      ∀ c ∈ pw, c ∈ buildAllowedCharacterPool cfg :=
  fun _ _ _ _ _ h => markovGeneratePassword_mem h

theorem c2_witness : 'a' ∈ buildAllowedCharacterPool cfgW2 :=
  c2_pool_amended 0 mW cfgW2 rngZero
    ((markovGeneratePassword 0 mW cfgW2 rngZero).1.getD [])
    (by decide) 'a' (by decide)

/-- **C5** counterexample: the heuristic generator does not enforce the
two-symbol minimum. On the length-8 lowercase+symbols config and the
all-zeros stream, the category repair inserts exactly one symbol (`'!'`)
and no later stage adds another, so the returned password has 1 symbol. -/
theorem c5_counterexample :
    cfg5.includeSymbols = true ∧
    (randomGeneratePassword cfg5 rngZero).1.isSome ∧
    countsOf ((randomGeneratePassword cfg5 rngZero).1.getD [])
      CharCategory.symbols < 2 := by
  decide

/-- **C5** (corrected). The Markov generator does enforce the minimums
whenever they fit (`minSum cfg ≤ cfg.length`, i.e. the sum of the enabled
minimums is at most the configured length — otherwise the replacement loop
cannot terminate, see C7): every returned password has at least 2 symbols
when `includeSymbols` and at least 2 digits when `includeNumbers`. The
heuristic generator only ever inserts one character per missing category
(`c5_counterexample`). -/
theorem c5_min_counts_amended :
    ∀ (fuel : Nat) (m : MarkovModel) (cfg : PasswordGeneratorConfig)
      (r : Rng) (pw : List Char),
      (markovGeneratePassword fuel m cfg r).1 = some pw →
      minSum cfg ≤ cfg.length →
      (cfg.includeSymbols = true → 2 ≤ countsOf pw CharCategory.symbols) ∧
      (cfg.includeNumbers = true → 2 ≤ countsOf pw CharCategory.numbers) :=
  fun _ _ _ _ _ h hlen => markovGeneratePassword_minCounts h hlen

theorem c5_witness :
    2 ≤ countsOf ((markovGeneratePassword 3 mW cfg5w rngZero).1.getD [])
      CharCategory.symbols :=
  (c5_min_counts_amended 3 mW cfg5w rngZero _ (by decide) (by decide)).1 rfl

/-! ## Claim C7: termination of generation

On `cfg7` (length 1, symbols only) the symbol minimum is 2, but a
one-character password can never hold 2 symbols, and `canReplace` refuses
every index whose character already has the target type — so the
`while (counts[type] < required)` loop of `ensureRequiredCharacters` runs
forever for every valid draw stream: each iteration replaces the single
symbol by another symbol and leaves the symbol count at 1. -/

theorem canReplace_c7_false {c : Char}
    (hc : getCharacterType c = some CharCategory.symbols)
    (counts mins : CharCategory → Nat) :
    ∀ i, canReplace [c] counts mins CharCategory.symbols i = false := by
  intro i
  match i with
  | 0 =>
      unfold canReplace
      simp [hc]
  | n + 1 =>
      unfold canReplace
      rfl

theorem findAttempts_c7_none {c : Char}
    (hc : getCharacterType c = some CharCategory.symbols)
    (counts mins : CharCategory → Nat) :
    ∀ (n : Nat) (r : Rng),
      (findAttempts [c] counts mins CharCategory.symbols n r).1 = none ∧
      (findAttempts [c] counts mins CharCategory.symbols n r).2.seq = r.seq := by
  intro n
  induction n with
  | zero => intro r; exact ⟨rfl, rfl⟩
  | succ k ih =>
      intro r
      rw [findAttempts]
      simp only [canReplace_c7_false hc counts mins, Bool.false_eq_true,
        if_false]
      exact ⟨(ih r.next.2).1, (ih r.next.2).2⟩

theorem scanIndex_c7_none {c : Char}
    (hc : getCharacterType c = some CharCategory.symbols)
    (counts mins : CharCategory → Nat) :
    scanIndex [c] counts mins CharCategory.symbols = none := by
  unfold scanIndex
  rw [List.find?_eq_none]
  intro i hi
  simp [canReplace_c7_false hc counts mins]

theorem findReplacementIndex_c7 {c : Char}
    (hc : getCharacterType c = some CharCategory.symbols)
    (counts mins : CharCategory → Nat) (r : Rng) (hv : ValidSeq r.seq) :
    (findReplacementIndex [c] counts mins CharCategory.symbols r).1 = 0 ∧
    (findReplacementIndex [c] counts mins CharCategory.symbols r).2.seq =
      r.seq := by
  unfold findReplacementIndex
  rcases hfa : findAttempts [c] counts mins CharCategory.symbols
      ([c].length * 2) r with ⟨o, r1⟩
  have h1 := findAttempts_c7_none hc counts mins ([c].length * 2) r
  rw [hfa] at h1
  obtain ⟨ho, hseq⟩ := h1
  dsimp only at ho hseq
  subst ho
  dsimp only
  rw [scanIndex_c7_none hc counts mins]
  dsimp only
  constructor
  · have heq1 : r1.next.1 = r.seq r1.pos := by
      show r1.seq r1.pos = r.seq r1.pos
      rw [hseq]
    have hlt : randIndex (r1.next.1) 1 < 1 := by
      rw [heq1]
      exact randIndex_lt (hv r1.pos).1 (hv r1.pos).2 (by norm_num)
    simp only [List.length_singleton]
    omega
  · show r1.seq = r.seq
    exact hseq

theorem getRandomFromChars_seq (chars : List Char)
    (cfg : PasswordGeneratorConfig) (r : Rng) :
    (getRandomFromChars chars cfg r).2.seq = r.seq := by
  unfold getRandomFromChars getRandomFromPool
  dsimp only
  split <;> split <;> rfl

theorem replaceCharOp_c7 {c : Char}
    (hc : getCharacterType c = some CharCategory.symbols)
    (counts : CharCategory → Nat) (c2 : Char) :
    replaceCharOp [c] counts 0 c2 CharCategory.symbols =
      ([c2], fun u => if u = CharCategory.symbols
        then (if u = CharCategory.symbols then counts u - 1 else counts u) + 1
        else (if u = CharCategory.symbols then counts u - 1 else counts u)) := by
  unfold replaceCharOp
  rw [show ([c].get? 0) = some c from rfl]
  dsimp only
  rw [hc]
  rfl

/-- The replacement loop never terminates from a one-symbol singleton
password under `cfg7`, whatever the fuel and the (valid) draw stream. -/
theorem c7_loop_general :
    ∀ (fuel : Nat) (c : Char) (counts : CharCategory → Nat) (r : Rng),
      ValidSeq r.seq → getCharacterType c = some CharCategory.symbols →
      counts CharCategory.symbols = 1 →
      (ensureTypeLoop cfg7 CharCategory.symbols symbolChars (minimums cfg7)
        fuel [c] counts r).1 = none := by
  intro fuel
  induction fuel with
  | zero => intro c counts r hv hc h1; rfl
  | succ n ih =>
      intro c counts r hv hc h1
      rw [ensureTypeLoop, if_pos (by rw [h1]; decide)]
      dsimp only
      obtain ⟨hidx, hseq1⟩ :=
        findReplacementIndex_c7 hc counts (minimums cfg7) r hv
      rw [hidx, replaceCharOp_c7 hc counts]
      dsimp only
      refine ih _ _ _ ?_ (symbols_draw_type cfg7 _) ?_
      · rw [getRandomFromChars_seq, hseq1]
        exact hv
      · simp [h1]

theorem ensureRequired_c7_none (fuel : Nat) :
    (ensureRequiredCharacters fuel ['!'] cfg7 ⟨zeroSeq, 2⟩).1 = none := by
  have hloop := c7_loop_general fuel '!' (countsOf ['!']) ⟨zeroSeq, 2⟩
    zeroSeq_valid (by decide) (by decide)
  unfold ensureRequiredCharacters
  dsimp only
  rw [if_pos (show cfg7.includeSymbols = true from rfl)]
  rcases heq : ensureTypeLoop cfg7 CharCategory.symbols symbolChars
      (minimums cfg7) fuel ['!'] (countsOf ['!']) ⟨zeroSeq, 2⟩ with ⟨o, r1⟩
  rw [heq] at hloop
  dsimp only at hloop
  subst hloop
  rfl

/-- Divergence of a concrete `generatePassword` call in the fuel model: the
call returns nothing however much replacement-loop fuel it is granted,
i.e. the source's unbounded loop never terminates on these inputs. -/
def markovGenDiverges (m : MarkovModel) (cfg : PasswordGeneratorConfig)
    (r : Rng) : Prop :=
  ∀ fuel : Nat, (markovGeneratePassword fuel m cfg r).1 = none

/-- **C7** counterexample: on the model trained on `["ab"]`, the length-1
symbols-only config and the all-zeros stream, `generatePassword` never
returns, no matter how many replacement-loop iterations (`fuel`) it is
allowed: the base password is `"a"`, it sanitizes to `"!"`, and the
symbol-minimum loop then diverges. -/
theorem c7_counterexample : markovGenDiverges mW cfg7 rngZero := by
  intro fuel
  unfold markovGeneratePassword
  rw [show generateBasePassword mW cfg7 rngZero =
      (some ['a'], (⟨zeroSeq, 1⟩ : Rng)) from rfl]
  dsimp only
  unfold applySecurityImprovements
  rw [show sanitizeToAllowedCharacters ['a'] cfg7 (⟨zeroSeq, 1⟩ : Rng) =
      (some ['!'], (⟨zeroSeq, 2⟩ : Rng)) from rfl]
  dsimp only
  rw [show ensureCharacterCategoriesM ['!'] cfg7 (⟨zeroSeq, 2⟩ : Rng) =
      (['!'], (⟨zeroSeq, 2⟩ : Rng)) from rfl]
  dsimp only
  have h := ensureRequired_c7_none fuel
  rcases heq : ensureRequiredCharacters fuel ['!'] cfg7 ⟨zeroSeq, 2⟩
    with ⟨o, r3⟩
  rw [heq] at h
  dsimp only at h
  subst h
  rfl

/-- **C7** (corrected). Generation does terminate — uniformly in the draw
stream — PROVIDED the enabled minimums fit into the configured length
(`minSum cfg ≤ cfg.length`): on a non-empty model, `generatePassword` with
replacement-loop fuel at least 3 returns a password. When the minimums do
not fit (e.g. `cfg7`), the replacement loop runs forever
(`c7_counterexample`), so the unconditional claim is false. -/
theorem c7_terminates_amended :
    ∀ (fuel : Nat) (m : MarkovModel) (cfg : PasswordGeneratorConfig) (r : Rng),
      m.model ≠ [] → minSum cfg ≤ cfg.length → 3 ≤ fuel →
      ((markovGeneratePassword fuel m cfg r).1).isSome :=
  fun _ _ _ r hm hlen hfuel => markovGeneratePassword_isSome r hm hlen hfuel

theorem c7_witness : ((markovGeneratePassword 4 mW cfgW2 rngZero).1).isSome :=
  c7_terminates_amended 4 mW cfgW2 rngZero (by decide) (by decide) (by decide)

/-! ## Claim C3: the time-to-crack estimators -/

theorem two_rpow_mul_logb {s : Nat} (hs : 1 ≤ s) (l : Nat) :
    (2 : ℝ) ^ ((l : ℝ) * Real.logb 2 (s : ℝ)) = (s : ℝ) ^ l := by
  have hs0 : (0:ℝ) < (s:ℝ) := by exact_mod_cast hs
  rw [mul_comm, Real.rpow_mul (by norm_num),
    Real.rpow_logb (by norm_num) (by norm_num) hs0, Real.rpow_natCast]

/-- **C3** counterexample: the two generators do NOT report equal
time-to-crack values for equal `(password, config)` inputs. For
`"aaaa"` under the uppercase+lowercase config, the heuristic estimator uses
`2^entropy = 26^4` combinations (entropy is computed from the password's
effective alphabet, 26), while the Markov estimator uses
`max(configSize, observedSize, 1)^length = 52^4` combinations. -/
theorem c3_counterexample :
    ∃ e, calculateEntropy aaaa = some e ∧
      (markovCalculateTimeToCrack aaaa cfgUL).seconds ≠
        (randomCalculateTimeToCrack e).seconds := by
  have h : effectiveEntropySize aaaa ≠ 0 := by decide
  refine ⟨(aaaa.length : ℝ) * Real.logb 2 (effectiveEntropySize aaaa : ℝ),
    ?_, ?_⟩
  · unfold calculateEntropy
    rw [if_neg h]
  · simp only [markovCalculateTimeToCrack, randomCalculateTimeToCrack]
    rw [two_rpow_mul_logb (by decide) aaaa.length,
      show effectiveEntropySize aaaa = 26 from by decide,
      show max (max (getCharacterSetSize cfgUL)
        (getCharacterSetSizeFromPassword aaaa)) 1 = 52 from by decide,
      show aaaa.length = 4 from by decide]
    norm_num

/-- **C3** (corrected). Each estimator separately follows its own formula
with the shared unit conversions (60, 3600, 86400, 365.25·86400): the
heuristic one computes `2^entropy / 10^12` seconds, the Markov one computes
`max(configSize, observedSize, 1)^length / 10^12` seconds. For a password
with defined entropy the two agree exactly when the entropy's effective
alphabet size equals the Markov estimator's
`max(configSize, observedSize, 1)` — they are NOT the same estimator in
general (`c3_counterexample`). -/
theorem c3_ttc_amended :
    (∀ e : ℝ,
        (randomCalculateTimeToCrack e).seconds = (2:ℝ) ^ e / 10 ^ 12 ∧
        (randomCalculateTimeToCrack e).minutes =
          (randomCalculateTimeToCrack e).seconds / 60 ∧
        (randomCalculateTimeToCrack e).hours =
          (randomCalculateTimeToCrack e).seconds / 3600 ∧
        (randomCalculateTimeToCrack e).days =
          (randomCalculateTimeToCrack e).seconds / 86400 ∧
        (randomCalculateTimeToCrack e).years =
          (randomCalculateTimeToCrack e).seconds / (365.25 * 86400)) ∧
    (∀ (pw : List Char) (cfg : PasswordGeneratorConfig),
        (markovCalculateTimeToCrack pw cfg).seconds =
          ((max (max (getCharacterSetSize cfg)
            (getCharacterSetSizeFromPassword pw)) 1 : ℕ) : ℝ) ^ pw.length /
            10 ^ 12 ∧
        (markovCalculateTimeToCrack pw cfg).minutes =
          (markovCalculateTimeToCrack pw cfg).seconds / 60 ∧
        (markovCalculateTimeToCrack pw cfg).hours =
          (markovCalculateTimeToCrack pw cfg).seconds / 3600 ∧
        (markovCalculateTimeToCrack pw cfg).days =
          (markovCalculateTimeToCrack pw cfg).seconds / 86400 ∧
        (markovCalculateTimeToCrack pw cfg).years =
          (markovCalculateTimeToCrack pw cfg).seconds / (365.25 * 86400)) ∧
    (∀ (pw : List Char) (cfg : PasswordGeneratorConfig) (e : ℝ),
        calculateEntropy pw = some e →
        ((markovCalculateTimeToCrack pw cfg).seconds =
            (randomCalculateTimeToCrack e).seconds ↔
          effectiveEntropySize pw =
            max (max (getCharacterSetSize cfg)
              (getCharacterSetSizeFromPassword pw)) 1)) := by
  refine ⟨fun e => ⟨rfl, rfl, rfl, rfl, rfl⟩,
    fun pw cfg => ⟨rfl, rfl, rfl, rfl, rfl⟩, ?_⟩
  intro pw cfg e he
  unfold calculateEntropy at he
  by_cases h0 : effectiveEntropySize pw = 0
  · rw [if_pos h0] at he
    exact absurd he (by simp)
  · rw [if_neg h0] at he
    have hee : e = (pw.length : ℝ) *
        Real.logb 2 (effectiveEntropySize pw : ℝ) :=
      (Option.some.injEq _ _).mp he.symm
    have hne : pw ≠ [] := by
      intro hnil
      exact h0 (by rw [hnil]; decide)
    have hlen : 1 ≤ pw.length := List.length_pos.mpr hne
    have hs1 : 1 ≤ effectiveEntropySize pw := Nat.one_le_iff_ne_zero.mpr h0
    simp only [markovCalculateTimeToCrack, randomCalculateTimeToCrack]
    rw [hee, two_rpow_mul_logb hs1 pw.length]
    constructor
    · intro hsec
      have hpow : ((max (max (getCharacterSetSize cfg)
          (getCharacterSetSizeFromPassword pw)) 1 : ℕ) : ℝ) ^ pw.length =
          ((effectiveEntropySize pw : ℕ) : ℝ) ^ pw.length := by
        have h2 := congrArg (fun x : ℝ => x * 10 ^ 12) hsec
        simpa using h2
      have hnat : (max (max (getCharacterSetSize cfg)
          (getCharacterSetSizeFromPassword pw)) 1) ^ pw.length =
          (effectiveEntropySize pw) ^ pw.length := by
        exact_mod_cast hpow
      exact (Nat.pow_left_injective (by omega) hnat).symm
    · intro hsize
      rw [hsize]

theorem c3_witness :
    (markovCalculateTimeToCrack aaaa c1cfg).seconds =
        (randomCalculateTimeToCrack ((aaaa.length : ℝ) *
          Real.logb 2 (effectiveEntropySize aaaa : ℝ))).seconds ↔
      effectiveEntropySize aaaa =
        max (max (getCharacterSetSize c1cfg)
          (getCharacterSetSizeFromPassword aaaa)) 1 :=
  c3_ttc_amended.2.2 aaaa c1cfg _ (by
    have h : effectiveEntropySize aaaa ≠ 0 := by decide
    unfold calculateEntropy
    rw [if_neg h])

end AIS
